import Mathlib

/-!
Verification of the openclaw-mini scheduler core against its specification.

The development shallowly embeds the relevant parts of the repository:

* the wake coalescer and dispatcher of `heartbeat.ts` (the `schedule` routine
  is reproduced in the README; the remainder of the file is not shipped under
  `src/`, so those parts are modelled from the spec),
* the keyed FIFO lane queue of `command-queue.ts` (modelled from the spec),
* the nested lane acquisition of `Agent.run` (`src/agent.ts`),
* the session manager of `src/session.ts`,
* the sandbox path resolution of `src/sandbox-paths.ts`.

Machine integers do not occur (all timestamps are mathematical naturals /
integers, as the JS numbers in play are small), and fallible code is embedded
with `Option` / `Except`.
-/

/- ================================================================
   Generic small-step execution over event traces
   ================================================================ -/

/-- Run a partial step function over a list of events; `none` means the trace
is invalid (some event fired while its guard was false). -/
def runM {σ ε : Type} (step : σ → ε → Option σ) : σ → List ε → Option σ
  | s, [] => some s
  | s, e :: es =>
    match step s e with
    | some s' => runM step s' es
    | none => none

theorem runM_nil {σ ε : Type} (step : σ → ε → Option σ) (s : σ) :
    runM step s [] = some s := rfl

theorem runM_cons {σ ε : Type} (step : σ → ε → Option σ) (s : σ) (e : ε) (es : List ε) :
    runM step s (e :: es) = (step s e).bind fun s' => runM step s' es := by
  cases h : step s e <;> simp [runM, h]

theorem runM_singleton {σ ε : Type} (step : σ → ε → Option σ) (s : σ) (e : ε) :
    runM step s [e] = step s e := by
  cases h : step s e <;> simp [runM, h]

theorem runM_append {σ ε : Type} (step : σ → ε → Option σ) (s : σ) (l₁ l₂ : List ε) :
    runM step s (l₁ ++ l₂) = (runM step s l₁).bind fun s' => runM step s' l₂ := by
  induction l₁ generalizing s with
  | nil => simp [runM]
  | cons e es ih =>
    rw [List.cons_append, runM_cons, runM_cons]
    cases step s e <;> simp [ih]

theorem runM_take_isSome {σ ε : Type} (step : σ → ε → Option σ) (s : σ) (l : List ε)
    (s₂ : σ) (h : runM step s l = some s₂) (n : ℕ) :
    ∃ s₁, runM step s (l.take n) = some s₁ := by
  have hsplit := runM_append step s (l.take n) (l.drop n)
  rw [List.take_append_drop, h] at hsplit
  cases hx : runM step s (l.take n) with
  | none => rw [hx] at hsplit; simp at hsplit
  | some s₁ => exact ⟨s₁, rfl⟩

theorem runM_take_succ {σ ε : Type} (step : σ → ε → Option σ) (s : σ) (l : List ε)
    (n : ℕ) (e : ε) (he : l[n]? = some e) :
    runM step s (l.take (n + 1)) = (runM step s (l.take n)).bind fun s' => step s' e := by
  rw [List.take_succ, runM_append]
  have : l[n]?.toList = [e] := by rw [he]; rfl
  rw [this]
  cases runM step s (l.take n) <;> simp [runM_singleton]

/-- Invariant transport along a valid trace. -/
theorem runM_inv {σ ε : Type} (step : σ → ε → Option σ) (Inv : σ → Prop)
    (hstep : ∀ s e s', Inv s → step s e = some s' → Inv s')
    {s s' : σ} {l : List ε} (h : runM step s l = some s') (h0 : Inv s) : Inv s' := by
  induction l generalizing s with
  | nil => rw [runM_nil] at h; cases h; exact h0
  | cons e es ih =>
    rw [runM_cons] at h
    cases hx : step s e with
    | none => rw [hx] at h; simp at h
    | some s₁ =>
      rw [hx] at h; simp at h
      exact ih h (hstep s e s₁ h0 hx)

/-- If a predicate holds at the end of a valid trace but can only be
established by a particular kind of event, then either it held at the start or
such an event occurs in the trace. -/
theorem runM_estab {σ ε : Type} (step : σ → ε → Option σ) (P : σ → Prop) (E : ε → Prop)
    (hstep : ∀ s e s', step s e = some s' → P s' → P s ∨ E e)
    {s s' : σ} {l : List ε} (h : runM step s l = some s') (hP : P s') :
    P s ∨ ∃ e ∈ l, E e := by
  induction l generalizing s with
  | nil => rw [runM_nil] at h; cases h; exact Or.inl hP
  | cons e es ih =>
    rw [runM_cons] at h
    cases hx : step s e with
    | none => rw [hx] at h; simp at h
    | some s₁ =>
      rw [hx] at h; simp at h
      rcases ih h with h1 | ⟨e', he', hE⟩
      · rcases hstep s e s₁ hx h1 with h2 | h2
        · exact Or.inl h2
        · exact Or.inr ⟨e, List.mem_cons_self e es, h2⟩
      · exact Or.inr ⟨e', List.mem_cons_of_mem e he', hE⟩

/-- Persistence: a predicate that no event in the trace can destroy carries
through a valid trace. -/
theorem runM_persist {σ ε : Type} (step : σ → ε → Option σ) (P : σ → Prop) (E : ε → Prop)
    (hstep : ∀ s e s', step s e = some s' → P s → ¬ E e → P s')
    {s s' : σ} {l : List ε} (h : runM step s l = some s') (hP : P s)
    (hE : ∀ e ∈ l, ¬ E e) : P s' := by
  induction l generalizing s with
  | nil => rw [runM_nil] at h; cases h; exact hP
  | cons e es ih =>
    rw [runM_cons] at h
    cases hx : step s e with
    | none => rw [hx] at h; simp at h
    | some s₁ =>
      rw [hx] at h; simp at h
      exact ih h (hstep s e s₁ hx hP (hE e (List.mem_cons_self e es)))
        (fun e' he' => hE e' (List.mem_cons_of_mem e he'))

/- ================================================================
   Positional list lemmas
   ================================================================ -/

theorem idx_some_lt {α : Type} : ∀ {l : List α} {m : ℕ} {a : α},
    l[m]? = some a → m < l.length := by
  intro l
  induction l with
  | nil => intro m a h; simp at h
  | cons x xs ih =>
    intro m a h
    cases m with
    | zero => simp
    | succ m =>
      simp only [List.getElem?_cons_succ] at h
      exact Nat.succ_lt_succ (ih h)

theorem idx_mem {α : Type} : ∀ {l : List α} {m : ℕ} {a : α}, l[m]? = some a → a ∈ l := by
  intro l
  induction l with
  | nil => intro m a h; simp at h
  | cons x xs ih =>
    intro m a h
    cases m with
    | zero =>
      simp only [List.getElem?_cons_zero, Option.some.injEq] at h
      exact h ▸ List.mem_cons_self x xs
    | succ m =>
      simp only [List.getElem?_cons_succ] at h
      exact List.mem_cons_of_mem x (ih h)

theorem take_idx {α : Type} : ∀ (l : List α) (n m : ℕ), m < n → (l.take n)[m]? = l[m]? := by
  intro l
  induction l with
  | nil => intro n m _; simp
  | cons x xs ih =>
    intro n m hmn
    cases n with
    | zero => omega
    | succ n =>
      cases m with
      | zero => simp
      | succ m =>
        simp only [List.take_succ_cons, List.getElem?_cons_succ]
        exact ih n m (Nat.lt_of_succ_lt_succ hmn)

theorem drop_idx {α : Type} : ∀ (l : List α) (n m : ℕ), (l.drop n)[m]? = l[n + m]? := by
  intro l
  induction l with
  | nil => intro n m; simp
  | cons x xs ih =>
    intro n m
    cases n with
    | zero => simp
    | succ n =>
      simp only [List.drop_succ_cons]
      rw [ih n m]
      have : n + 1 + m = (n + m) + 1 := by omega
      rw [this, List.getElem?_cons_succ]

theorem mem_idx {α : Type} : ∀ {l : List α} {a : α}, a ∈ l → ∃ m : ℕ, l[m]? = some a := by
  intro l
  induction l with
  | nil => intro a h; cases h
  | cons x xs ih =>
    intro a h
    rcases List.mem_cons.mp h with h | h
    · exact ⟨0, by simp [h]⟩
    · rcases ih h with ⟨m, hm⟩
      refine ⟨m + 1, ?_⟩
      rw [List.getElem?_cons_succ]
      exact hm

theorem mem_take_idx {α : Type} {l : List α} {n : ℕ} {a : α} (h : a ∈ l.take n) :
    ∃ m, m < n ∧ l[m]? = some a := by
  rcases mem_idx h with ⟨m, hm⟩
  have hlen : m < (l.take n).length := idx_some_lt hm
  have hmn : m < n := lt_of_lt_of_le hlen (by simp)
  exact ⟨m, hmn, by rw [← take_idx l n m hmn]; exact hm⟩

theorem split_unique {α : Type} : ∀ (a c : List α) (x : α) (b d : List α),
    a ++ x :: b = c ++ x :: d → x ∉ a → x ∉ c → a = c := by
  intro a
  induction a with
  | nil =>
    intro c x b d heq _ hxc
    cases c with
    | nil => rfl
    | cons y c' =>
      simp only [List.nil_append, List.cons_append, List.cons.injEq] at heq
      exact absurd (heq.1 ▸ List.mem_cons_self y c') (heq.1 ▸ hxc)
  | cons y a' ih =>
    intro c x b d heq hxa hxc
    cases c with
    | nil =>
      simp only [List.nil_append, List.cons_append, List.cons.injEq] at heq
      exact absurd (heq.1.symm ▸ List.mem_cons_self y a') (heq.1.symm ▸ hxa)
    | cons z c' =>
      simp only [List.cons_append, List.cons.injEq] at heq
      have := ih c' x b d heq.2 (fun hx => hxa (List.mem_cons_of_mem y hx))
        (fun hx => hxc (List.mem_cons_of_mem z hx))
      rw [heq.1, this]

/- ================================================================
   Heartbeat wake coalescer (claims C3, C4, C5)
   ================================================================ -/

/-- Modelled from the spec: `HeartbeatState` of `heartbeat.ts` (the file is
not under `src/`; the `schedule` routine is quoted in README lines 274-285).
`timer` holds the absolute fire time of the pending one-shot timer
(`setTimeout` handle in the source), `cycles` is a ghost counter of Dispatcher
cycle invocations used to state "exactly one cycle" properties. -/
structure HBState where
  running : Bool
  scheduled : Bool
  timer : Option Nat
  lastRunAt : Option Nat
  cycles : Nat
deriving DecidableEq

/-- Embedding of `schedule` from README `heartbeat.ts:147-160`: while a cycle
is running the wake is double-buffered into `scheduled`; while a timer is
already armed the call is ignored (merge); otherwise a one-shot timer is
armed `delayMs` from `now`. -/
def schedule (s : HBState) (now delayMs : Nat) : HBState :=
  if s.running then { s with scheduled := true }
  else if s.timer.isSome then s
  else { s with timer := some (now + delayMs) }

/-- Modelled from the spec: `request(reason)` arms the merge-window timer via
`schedule(mergeWindowMs)` (spec section 4.4; the reason value does not affect
scheduling, only reporting, so it is elided here). -/
def request (mergeWindowMs : Nat) (s : HBState) (now : Nat) : HBState :=
  schedule s now mergeWindowMs

/-- Modelled from the spec: the armed timer fires, consuming the timer and
invoking exactly one Dispatcher cycle (`execute` in the source). -/
def fireTimer (s : HBState) : HBState :=
  match s.timer with
  | none => s
  | some _ => { s with timer := none, running := true, cycles := s.cycles + 1 }

/-- Modelled from the spec: completion bookkeeping of a Dispatcher cycle
(spec sections 4.4 and 4.5 step 6): set `lastRunAt := now`; if `scheduled`
was set mid-run, clear it and re-arm for the merge window, else arm the
steady-state timer for delay `lastRunAt + intervalMs - now` (clamped at zero:
a zero or negative delay fires immediately). -/
def completeCycle (mergeWindowMs intervalMs : Nat) (s : HBState) (now : Nat) : HBState :=
  let s1 : HBState := { s with running := false, lastRunAt := some now }
  if s.scheduled then
    schedule { s1 with scheduled := false } now mergeWindowMs
  else
    let last : Nat := now
    let delay : Int := (last : Int) + (intervalMs : Int) - (now : Int)
    schedule s1 now (if delay ≤ 0 then 0 else delay.toNat)

theorem request_fix (W : Nat) (s : HBState) (t : Nat)
    (hrun : s.running = false) (htm : s.timer.isSome) : request W s t = s := by
  simp [request, schedule, hrun, htm]

/-- C3: every `request` arriving while the merge-window timer armed by the
first request is still pending leaves the state untouched (no additional
timer), and when the window elapses the timer fires exactly one Dispatcher
cycle. -/
theorem heartbeat_merge_window (W : Nat) (s0 : HBState) (t0 : Nat) (ts : List Nat)
    (hrun : s0.running = false) (_hsch : s0.scheduled = false) (htm : s0.timer = none) :
    (request W s0 t0).timer = some (t0 + W) ∧
    ts.foldl (request W) (request W s0 t0) = request W s0 t0 ∧
    (fireTimer (ts.foldl (request W) (request W s0 t0))).cycles = s0.cycles + 1 ∧
    (fireTimer (ts.foldl (request W) (request W s0 t0))).timer = none := by
  have h1 : request W s0 t0 = { s0 with timer := some (t0 + W) } := by
    simp [request, schedule, hrun, htm]
  have hfix : ts.foldl (request W) (request W s0 t0) = request W s0 t0 := by
    induction ts with
    | nil => rfl
    | cons t ts ih =>
      rw [List.foldl_cons, request_fix W _ t (by rw [h1]; exact hrun) (by rw [h1]; rfl)]
      exact ih
  refine ⟨by rw [h1], hfix, ?_, ?_⟩ <;>
    · rw [hfix, h1]
      rfl

/-- C4: a request arriving while a cycle is running (`running = true`) only
sets `scheduled` (no timer armed, nothing lost); further requests during the
same cycle change nothing more; and completion with `scheduled = true` clears
the flag and re-arms exactly one merge-window timer, whose firing yields
exactly one further cycle. -/
theorem heartbeat_double_buffer (W I : Nat) (s : HBState) (t tEnd : Nat)
    (hrun : s.running = true) :
    request W s t = { s with scheduled := true } ∧
    (∀ t2, request W (request W s t) t2 = { s with scheduled := true }) ∧
    (s.timer = none →
      completeCycle W I (request W s t) tEnd =
        { s with running := false, scheduled := false, lastRunAt := some tEnd,
                 timer := some (tEnd + W) } ∧
      (fireTimer (completeCycle W I (request W s t) tEnd)).cycles = s.cycles + 1 ∧
      (fireTimer (completeCycle W I (request W s t) tEnd)).timer = none) := by
  have h1 : request W s t = { s with scheduled := true } := by
    simp [request, schedule, hrun]
  refine ⟨h1, fun t2 => ?_, fun htm => ?_⟩
  · rw [h1]; simp [request, schedule, hrun]
  · rw [h1]
    have h2 : completeCycle W I { s with scheduled := true } tEnd =
        { s with running := false, scheduled := false, lastRunAt := some tEnd,
                 timer := some (tEnd + W) } := by
      simp [completeCycle, schedule, htm]
    exact ⟨h2, by rw [h2]; rfl, by rw [h2]; rfl⟩

/-- C5: a cycle completing without a mid-flight wake (`scheduled = false`)
records `lastRunAt := now` (the completion time) and arms the next steady-state
wake at exactly `lastRunAt + intervalMs`; the armed delay is computed from the
completion bookkeeping only (the cycle start time and duration are not inputs
of `completeCycle`), and a zero computed delay fires immediately at `now`. -/
theorem heartbeat_no_drift (W I : Nat) (s : HBState) (tEnd : Nat)
    (_hrun : s.running = true) (hsch : s.scheduled = false) (htm : s.timer = none) :
    (completeCycle W I s tEnd).lastRunAt = some tEnd ∧
    (completeCycle W I s tEnd).timer =
      (completeCycle W I s tEnd).lastRunAt.map (fun last => last + I) ∧
    (completeCycle W 0 s tEnd).timer = some tEnd := by
  have key : ∀ J : Nat, completeCycle W J s tEnd =
      { s with running := false, lastRunAt := some tEnd, timer := some (tEnd + J) } := by
    intro J
    simp only [completeCycle, hsch, Bool.false_eq_true, if_false]
    have hd : ((tEnd : Int) + (J : Int) - (tEnd : Int)) = (J : Int) := by ring
    rcases Nat.eq_zero_or_pos J with hJ | hJ
    · subst hJ
      simp [schedule, htm, hd]
    · have : ¬ ((tEnd : Int) + (J : Int) - (tEnd : Int) ≤ 0) := by
        rw [hd]; exact not_le.mpr (by exact_mod_cast hJ)
      simp [schedule, htm, this, hd]
      exact fun h => h.symm
  exact ⟨by rw [key I], by rw [key I]; simp, by rw [key 0]; simp⟩

/- ================================================================
   DuplicateGuard (claim C7)
   ================================================================ -/

/-- Window of the duplicate guard: 24 hours in milliseconds (spec: "Window =
24 hours, fixed"). -/
def duplicateWindowMs : Nat := 24 * 60 * 60 * 1000

/-- Modelled from the spec: the DuplicateGuard state, a list of
`(fingerprint, sentAt)` entries (`heartbeat.ts` is not under `src/`). -/
structure DupGuard where
  entries : List (String × Nat)
deriving DecidableEq

/-- Modelled from the spec: the content-based fingerprint; byte-identical
messages collide by construction, so the message text itself serves as the
model of the hash. -/
def fingerprint (message : String) : String := message

/-- Modelled from the spec: `shouldSuppress(message)`. Expired entries
(recorded more than 24 hours ago) are pruned lazily; if a non-expired entry
with the message fingerprint exists the call returns `true` without recording
again, otherwise it records `(fingerprint, now)` and returns `false`. -/
def shouldSuppress (g : DupGuard) (message : String) (now : Nat) : Bool × DupGuard :=
  let pruned := g.entries.filter (fun e => now - e.2 ≤ duplicateWindowMs)
  if pruned.any (fun e => e.1 = fingerprint message) then
    (true, ⟨pruned⟩)
  else
    (false, ⟨pruned ++ [(fingerprint message, now)]⟩)

/-- C7: duplicate suppression. With no prior entry for a message, emitting it
records it and returns `false`; a byte-identical message within 24 hours is
suppressed without adding an entry (the second state's entries all come from
the first); the same second message more than 24 hours later is not
suppressed, and in that case the first message was not suppressed either. -/
theorem duplicate_guard_window (m : String) (t1 t2 : Nat) (g : DupGuard)
    (hfresh : ∀ e ∈ g.entries, e.1 ≠ m) (_h12 : t1 ≤ t2) :
    (shouldSuppress g m t1).1 = false ∧
    (t2 - t1 ≤ duplicateWindowMs →
      (shouldSuppress (shouldSuppress g m t1).2 m t2).1 = true ∧
      ∀ e ∈ (shouldSuppress (shouldSuppress g m t1).2 m t2).2.entries,
        e ∈ (shouldSuppress g m t1).2.entries) ∧
    (duplicateWindowMs < t2 - t1 →
      (shouldSuppress (shouldSuppress g m t1).2 m t2).1 = false) := by
  have hany : (g.entries.filter (fun e => t1 - e.2 ≤ duplicateWindowMs)).any
      (fun e => e.1 = fingerprint m) = false := by
    rw [List.any_eq_false]
    intro e he
    have := hfresh e (List.mem_of_mem_filter he)
    simp [fingerprint, this]
  have h1 : shouldSuppress g m t1 =
      (false, ⟨g.entries.filter (fun e => t1 - e.2 ≤ duplicateWindowMs) ++
        [(fingerprint m, t1)]⟩) := by
    simp only [shouldSuppress, hany, Bool.false_eq_true, if_false]
  refine ⟨by rw [h1], fun hin => ?_, fun hout => ?_⟩
  · rw [h1]
    have hmem : (fingerprint m, t1) ∈
        (g.entries.filter (fun e => t1 - e.2 ≤ duplicateWindowMs) ++
          [(fingerprint m, t1)]).filter (fun e => t2 - e.2 ≤ duplicateWindowMs) := by
      apply List.mem_filter.mpr
      exact ⟨List.mem_append_right _ (List.mem_singleton_self _), by simpa using hin⟩
    have hany2 : ((g.entries.filter (fun e => t1 - e.2 ≤ duplicateWindowMs) ++
        [(fingerprint m, t1)]).filter (fun e => t2 - e.2 ≤ duplicateWindowMs)).any
        (fun e => e.1 = fingerprint m) = true := by
      rw [List.any_eq_true]
      exact ⟨(fingerprint m, t1), hmem, by simp⟩
    constructor
    · simp only [shouldSuppress, hany2, if_true]
    · intro e he
      simp only [shouldSuppress, hany2, if_true] at he
      exact List.mem_of_mem_filter he
  · rw [h1]
    have hany3 : ((g.entries.filter (fun e => t1 - e.2 ≤ duplicateWindowMs) ++
        [(fingerprint m, t1)]).filter (fun e => t2 - e.2 ≤ duplicateWindowMs)).any
        (fun e => e.1 = fingerprint m) = false := by
      rw [List.any_eq_false]
      intro e he
      have he2 := List.mem_of_mem_filter he
      have hwin := (List.mem_filter.mp he).2
      rcases List.mem_append.mp he2 with hl | hr
      · have := hfresh e (List.mem_of_mem_filter hl)
        simp [fingerprint, this]
      · have : e = (fingerprint m, t1) := by simpa using hr
        subst this
        simp only [decide_eq_true_eq] at hwin
        omega
    simp only [shouldSuppress, hany3, Bool.false_eq_true, if_false]

/- ================================================================
   Dispatcher runOnce (claim C6)
   ================================================================ -/

/-- Modelled from the spec: the closed set of wake reasons. -/
inductive WakeReason
  | interval
  | cron
  | exec
  | requested
deriving DecidableEq

/-- Modelled from the spec: outcome of one Dispatcher cycle. -/
inductive CycleOutcome
  | skippedInactive
  | skippedEmpty
  | completed
  | errored
deriving DecidableEq

/-- Modelled from the spec: result of the external agent-run callback. -/
structure CallbackResult where
  ok : Bool
  message : Option String
deriving DecidableEq

/-- Modelled from the spec: `Dispatcher.runOnce` of `heartbeat.ts` (not under
`src/`). Gates in order: active hours, task load (provider failure degrades to
the empty list), empty-content gate (skip unless the reason is `exec`), then
dispatch of the external callback (counted), then duplicate suppression of the
produced message. Returns the outcome, the number of callback invocations,
the updated duplicate guard and the emitted message, if any. -/
def runOnce (activeNow : Bool) (provided : Option (List String)) (reason : WakeReason)
    (cb : CallbackResult) (g : DupGuard) (now : Nat) :
    CycleOutcome × Nat × DupGuard × Option String :=
  if activeNow = false then (.skippedInactive, 0, g, none)
  else
    let tasks := provided.getD []
    if tasks = [] ∧ reason ≠ .exec then (.skippedEmpty, 0, g, none)
    else
      let outcome := if cb.ok then CycleOutcome.completed else CycleOutcome.errored
      match cb.message with
      | none => (outcome, 1, g, none)
      | some msg =>
        let sup := shouldSuppress g msg now
        if sup.1 then (outcome, 1, sup.2, none) else (outcome, 1, sup.2, some msg)

/-- C6: with an empty loaded task list, a cycle whose reason is not `exec`
ends `skipped:empty` without invoking the external callback, while a cycle
with reason `exec` invokes the callback exactly once. -/
theorem runOnce_empty_gate (provided : Option (List String)) (reason : WakeReason)
    (cb : CallbackResult) (g : DupGuard) (now : Nat)
    (hempty : provided.getD [] = []) :
    (reason ≠ .exec →
      runOnce true provided reason cb g now = (.skippedEmpty, 0, g, none)) ∧
    (reason = .exec → (runOnce true provided reason cb g now).2.1 = 1) := by
  constructor
  · intro hne
    simp [runOnce, hempty, hne]
  · intro he
    subst he
    have : ¬ (provided.getD [] = [] ∧ (WakeReason.exec : WakeReason) ≠ .exec) := by
      simp
    simp only [runOnce, Bool.true_eq_false, if_false, this, if_false]
    cases cb.message with
    | none => rfl
    | some msg =>
      by_cases hs : (shouldSuppress g msg now).1 <;> simp [hs]

/- ================================================================
   ActiveHoursPolicy (claim C8)
   ================================================================ -/

/-- Modelled from the spec: active-hours configuration, a 24h-clock window
with a timezone; the timezone is embedded as a UTC offset in minutes. -/
structure ActiveHours where
  startHour : Nat
  endHour : Nat
  tzOffsetMinutes : Int
deriving DecidableEq

/-- Modelled from the spec: local hour (0-23) of a clock instant, given in
minutes since the epoch, under a timezone offset in minutes. -/
def localHourAt (nowMinutes tzOffsetMinutes : Int) : Nat :=
  (((nowMinutes + tzOffsetMinutes).emod 1440).toNat) / 60

theorem localHourAt_lt_24 (nowMinutes tz : Int) : localHourAt nowMinutes tz < 24 := by
  unfold localHourAt
  have h0 : 0 ≤ (nowMinutes + tz).emod 1440 := Int.emod_nonneg _ (by norm_num)
  have h1 : (nowMinutes + tz).emod 1440 < 1440 := Int.emod_lt_of_pos _ (by norm_num)
  have h2 : ((nowMinutes + tz).emod 1440).toNat < 1440 := by omega
  omega

/-- Modelled from the spec: `ActiveHoursPolicy.isActive(now, config)`. Absent
config means always active; a window with `startHour < endHour` is a single
half-open range; a window with `startHour > endHour` wraps midnight and is the
union of two ranges; the degenerate `startHour = endHour` window is treated as
always active. Boundary convention: inclusive at `startHour`, exclusive at
`endHour`. -/
def isActive (nowMinutes : Int) (config : Option ActiveHours) : Bool :=
  match config with
  | none => true
  | some c =>
    let h := localHourAt nowMinutes c.tzOffsetMinutes
    if c.startHour < c.endHour then
      decide (c.startHour ≤ h ∧ h < c.endHour)
    else if c.endHour < c.startHour then
      decide (c.startHour ≤ h ∨ h < c.endHour)
    else
      true

/-- C8: active-hours correctness. A non-wrapping window (`start < end`) is
exact range containment of the local hour; a midnight-wrapping window
(`start > end`) is containment in the union of the two ranges
`[start, 24)` and `[0, end)`; absent config is always active; and the result
is a pure function of the local hour (hence deterministic in `now`). -/
theorem active_hours_policy (now : Int) (c : ActiveHours) :
    (c.startHour < c.endHour →
      (isActive now (some c) = true ↔
        (c.startHour ≤ localHourAt now c.tzOffsetMinutes ∧
          localHourAt now c.tzOffsetMinutes < c.endHour))) ∧
    (c.endHour < c.startHour →
      (isActive now (some c) = true ↔
        ((c.startHour ≤ localHourAt now c.tzOffsetMinutes ∧
            localHourAt now c.tzOffsetMinutes < 24) ∨
          localHourAt now c.tzOffsetMinutes < c.endHour))) ∧
    isActive now none = true ∧
    (∀ now2 : Int, localHourAt now c.tzOffsetMinutes = localHourAt now2 c.tzOffsetMinutes →
      isActive now (some c) = isActive now2 (some c)) := by
  refine ⟨fun hlt => ?_, fun hgt => ?_, rfl, fun now2 heq => ?_⟩
  · simp [isActive, hlt]
  · have hnlt : ¬ c.startHour < c.endHour := by omega
    have h24 := localHourAt_lt_24 now c.tzOffsetMinutes
    simp only [isActive, hnlt, if_false, hgt, if_true, decide_eq_true_eq]
    constructor
    · intro h
      rcases h with h | h
      · exact Or.inl ⟨h, h24⟩
      · exact Or.inr h
    · intro h
      rcases h with ⟨h, _⟩ | h
      · exact Or.inl h
      · exact Or.inr h
  · simp only [isActive, heq]

/- ================================================================
   SessionManager (claim C9)
   ================================================================ -/

/-- Message roles, from `src/session.ts`. -/
inductive Role
  | user
  | assistant
deriving DecidableEq

/-- A content block, from `src/session.ts` (fields are optional there; the
claim treats messages opaquely, so the exact payload carries no weight). -/
structure ContentBlock where
  type : String
  text : Option String
  id : Option String
  name : Option String
  tool_use_id : Option String
  content : Option String
deriving DecidableEq

/-- Message content: plain text or a list of blocks, from `src/session.ts`. -/
inductive MsgContent
  | str (s : String)
  | blocks (bs : List ContentBlock)
deriving DecidableEq

/-- A session message, from `src/session.ts`. -/
structure Message where
  role : Role
  content : MsgContent
  timestamp : Nat
deriving DecidableEq

/-- State of `SessionManager` (`src/session.ts`): the in-memory cache
(`cache : Map<string, Message[]>`) and the JSONL files on disk, modelled as
the list of messages whose serializations were appended to the session's
file (the file path is the injective `getPath` image of the key, so the disk
is keyed by session key here). -/
structure SessionManager where
  cache : String → Option (List Message)
  disk : String → List Message

/-- First half of `SessionManager.append` (`src/session.ts:143-153`): update
the in-memory cache (`this.cache.set`) so later reads observe the message. -/
def SessionManager.appendCacheStep (sm : SessionManager) (k : String) (m : Message) :
    SessionManager :=
  { sm with cache := Function.update sm.cache k (some ((sm.cache k).getD [] ++ [m])) }

/-- Second half of `SessionManager.append`: append the serialized message to
the session's JSONL file (`fs.appendFile`). -/
def SessionManager.appendDiskStep (sm : SessionManager) (k : String) (m : Message) :
    SessionManager :=
  { sm with disk := Function.update sm.disk k (sm.disk k ++ [m]) }

/-- `SessionManager.append`: cache update first, then the disk append. -/
def SessionManager.append (sm : SessionManager) (k : String) (m : Message) :
    SessionManager :=
  (sm.appendCacheStep k m).appendDiskStep k m

/-- `SessionManager.get` (`src/session.ts:159-161`): read the cache only,
empty when the key is not cached. -/
def SessionManager.get (sm : SessionManager) (k : String) : List Message :=
  (sm.cache k).getD []

/-- C9: after `append k m`, `get k` returns the previously cached history
with `m` appended; the cache step alone already makes `m` visible to `get`
while leaving the disk untouched, so a read between the cache update and the
disk write (or before the write completes) observes `m`; the disk append
itself adds exactly the one serialized message. -/
theorem session_append_get (sm : SessionManager) (k : String) (m : Message) :
    (sm.append k m).get k = sm.get k ++ [m] ∧
    (sm.appendCacheStep k m).get k = sm.get k ++ [m] ∧
    (sm.appendCacheStep k m).disk = sm.disk ∧
    (sm.append k m).disk k = sm.disk k ++ [m] := by
  refine ⟨?_, ?_, rfl, ?_⟩
  · simp [SessionManager.append, SessionManager.appendCacheStep,
      SessionManager.appendDiskStep, SessionManager.get]
  · simp [SessionManager.appendCacheStep, SessionManager.get]
  · simp [SessionManager.append, SessionManager.appendCacheStep,
      SessionManager.appendDiskStep]

/- ================================================================
   LaneQueue (claim C2)
   ================================================================ -/

/-- Modelled from the spec: observable events of the keyed FIFO lane queue of
`command-queue.ts` (not under `src/`). Tasks are identified by numeric ids;
`enq k t` is `enqueue(laneKey k, fn t)`, `start t` is the moment `fn t` begins
executing, `finish t ok` the moment it settles (success or failure). -/
inductive LaneEv
  | enq (k t : Nat)
  | start (t : Nat)
  | finish (t : Nat) (ok : Bool)
deriving DecidableEq

/-- Modelled from the spec: state of the lane queue. `keyOf` assigns each task
its lane key at enqueue time, `waiting` is the per-key FIFO of pending tasks,
`running` the at-most-one task currently executing per key; `enqOrder` and
`done` are ghost histories (arrival order and completion order per key) used
to state the FIFO property. -/
structure LaneState where
  keyOf : Nat → Option Nat
  waiting : Nat → List Nat
  running : Nat → Option Nat
  enqOrder : Nat → List Nat
  done : Nat → List Nat

def laneInit : LaneState :=
  ⟨fun _ => none, fun _ => [], fun _ => none, fun _ => [], fun _ => []⟩

/-- Modelled from the spec: one scheduling step of the lane queue. A task may
be enqueued once; it may start only when it heads its lane's FIFO and the lane
is free; it may finish only while running. -/
def stepL (s : LaneState) : LaneEv → Option LaneState
  | .enq k t =>
    if s.keyOf t = none then
      some { s with
        keyOf := Function.update s.keyOf t (some k),
        waiting := Function.update s.waiting k (s.waiting k ++ [t]),
        enqOrder := Function.update s.enqOrder k (s.enqOrder k ++ [t]) }
    else none
  | .start t =>
    (s.keyOf t).bind fun k =>
      if s.running k = none ∧ (s.waiting k).head? = some t then
        some { s with
          running := Function.update s.running k (some t),
          waiting := Function.update s.waiting k (s.waiting k).tail }
      else none
  | .finish t _ =>
    (s.keyOf t).bind fun k =>
      if s.running k = some t then
        some { s with
          running := Function.update s.running k none,
          done := Function.update s.done k (s.done k ++ [t]) }
      else none

theorem stepL_enq_inv {s s' : LaneState} {k t : Nat}
    (h : stepL s (.enq k t) = some s') :
    s.keyOf t = none ∧
    s' = { s with
      keyOf := Function.update s.keyOf t (some k),
      waiting := Function.update s.waiting k (s.waiting k ++ [t]),
      enqOrder := Function.update s.enqOrder k (s.enqOrder k ++ [t]) } := by
  simp only [stepL] at h
  split at h
  · exact ⟨by assumption, (Option.some.inj h).symm⟩
  · simp at h

theorem stepL_start_inv {s s' : LaneState} {t : Nat}
    (h : stepL s (.start t) = some s') :
    ∃ k, s.keyOf t = some k ∧ s.running k = none ∧ (s.waiting k).head? = some t ∧
      s' = { s with
        running := Function.update s.running k (some t),
        waiting := Function.update s.waiting k (s.waiting k).tail } := by
  simp only [stepL] at h
  cases hk : s.keyOf t with
  | none => rw [hk] at h; simp at h
  | some k =>
    rw [hk] at h
    simp only [Option.some_bind] at h
    split at h
    · rename_i hc
      exact ⟨k, rfl, hc.1, hc.2, (Option.some.inj h).symm⟩
    · simp at h

theorem stepL_finish_inv {s s' : LaneState} {t : Nat} {ok : Bool}
    (h : stepL s (.finish t ok) = some s') :
    ∃ k, s.keyOf t = some k ∧ s.running k = some t ∧
      s' = { s with
        running := Function.update s.running k none,
        done := Function.update s.done k (s.done k ++ [t]) } := by
  simp only [stepL] at h
  cases hk : s.keyOf t with
  | none => rw [hk] at h; simp at h
  | some k =>
    rw [hk] at h
    simp only [Option.some_bind] at h
    split at h
    · rename_i hc
      exact ⟨k, rfl, hc, (Option.some.inj h).symm⟩
    · simp at h

/-- FIFO bookkeeping invariant of the lane queue: each key's arrival history
splits into completed tasks, the running task and the waiting FIFO, in order;
arrival histories determine the key and contain no duplicates. -/
def LaneInv (s : LaneState) : Prop :=
  (∀ k, s.enqOrder k = s.done k ++ (s.running k).toList ++ s.waiting k) ∧
  (∀ k t, t ∈ s.enqOrder k → s.keyOf t = some k) ∧
  (∀ k, (s.enqOrder k).Nodup)

theorem laneInit_inv : LaneInv laneInit := by
  refine ⟨fun k => rfl, fun k t h => ?_, fun k => List.nodup_nil⟩
  simp [laneInit] at h

theorem stepL_inv {s s' : LaneState} {e : LaneEv}
    (hInv : LaneInv s) (h : stepL s e = some s') : LaneInv s' := by
  obtain ⟨h1, h2, h3⟩ := hInv
  cases e with
  | enq k t =>
    obtain ⟨hfresh, rfl⟩ := stepL_enq_inv h
    refine ⟨fun k' => ?_, fun k' t' ht' => ?_, fun k' => ?_⟩
    · by_cases hk' : k' = k
      · subst hk'
        simp only [Function.update_same]
        rw [h1 k']
        simp [List.append_assoc]
      · simp only [Function.update_noteq hk']
        exact h1 k'
    · simp only at ht'
      by_cases htt : t' = t
      · subst htt
        by_cases hk' : k' = k
        · subst hk'
          simp [Function.update_same]
        · rw [Function.update_noteq hk'] at ht'
          exact absurd (h2 k' t' ht') (by rw [hfresh]; simp)
      · simp only [Function.update_noteq htt]
        by_cases hk' : k' = k
        · subst hk'
          rw [Function.update_same] at ht'
          rcases List.mem_append.mp ht' with hm | hm
          · exact h2 k' t' hm
          · exact absurd (List.mem_singleton.mp hm) htt
        · rw [Function.update_noteq hk'] at ht'
          exact h2 k' t' ht'
    · by_cases hk' : k' = k
      · subst hk'
        simp only [Function.update_same]
        rw [List.nodup_append]
        refine ⟨h3 k', List.nodup_singleton t, fun a ha hat => ?_⟩
        rw [List.mem_singleton.mp hat] at ha
        exact absurd (h2 k' t ha) (by rw [hfresh]; simp)
      · simp only [Function.update_noteq hk']
        exact h3 k'
  | start t =>
    obtain ⟨k, hk, hrun, hhead, rfl⟩ := stepL_start_inv h
    refine ⟨fun k' => ?_, h2, h3⟩
    by_cases hk' : k' = k
    · subst hk'
      obtain ⟨tl, hw⟩ : ∃ tl, s.waiting k' = t :: tl := by
        cases hx : s.waiting k' with
        | nil => rw [hx] at hhead; simp at hhead
        | cons a l =>
          rw [hx] at hhead
          simp only [List.head?_cons, Option.some.injEq] at hhead
          exact ⟨l, by rw [hhead]⟩
      simp only [Function.update_same]
      rw [h1 k', hrun, hw]
      simp
    · simp only [Function.update_noteq hk']
      exact h1 k'
  | finish t ok =>
    obtain ⟨k, hk, hrun, rfl⟩ := stepL_finish_inv h
    refine ⟨fun k' => ?_, h2, h3⟩
    by_cases hk' : k' = k
    · subst hk'
      simp only [Function.update_same]
      rw [h1 k', hrun]
      simp
    · simp only [Function.update_noteq hk']
      exact h1 k'

theorem stepL_keyOf_persist {s s' : LaneState} {e : LaneEv} {t k : Nat}
    (h : stepL s e = some s') (hP : s.keyOf t = some k) : s'.keyOf t = some k := by
  cases e with
  | enq k' t' =>
    obtain ⟨hfresh, rfl⟩ := stepL_enq_inv h
    have htt : t ≠ t' := fun heq => by rw [heq, hfresh] at hP; cases hP
    simp only [Function.update_noteq htt]
    exact hP
  | start t' =>
    obtain ⟨k', _, _, _, rfl⟩ := stepL_start_inv h
    exact hP
  | finish t' ok =>
    obtain ⟨k', _, _, rfl⟩ := stepL_finish_inv h
    exact hP

theorem stepL_keyOf_isSome {s s' : LaneState} {e : LaneEv} {t : Nat}
    (h : stepL s e = some s') (hP : (s.keyOf t).isSome = true) :
    (s'.keyOf t).isSome = true := by
  cases hx : s.keyOf t with
  | none => rw [hx] at hP; cases hP
  | some k => rw [stepL_keyOf_persist h hx]; rfl

theorem stepL_enqOrder_mem {s s' : LaneState} {e : LaneEv} {t k : Nat}
    (h : stepL s e = some s') (hP : t ∈ s.enqOrder k) : t ∈ s'.enqOrder k := by
  cases e with
  | enq k' t' =>
    obtain ⟨_, rfl⟩ := stepL_enq_inv h
    simp only
    by_cases hk' : k = k'
    · subst hk'
      simp only [Function.update_same]
      exact List.mem_append_left _ hP
    · simp only [Function.update_noteq (fun heq => hk' heq)]
      exact hP
  | start t' =>
    obtain ⟨k', _, _, _, rfl⟩ := stepL_start_inv h
    exact hP
  | finish t' ok =>
    obtain ⟨k', _, _, rfl⟩ := stepL_finish_inv h
    exact hP

theorem stepL_enqOrder_extend {s s' : LaneState} {e : LaneEv}
    (h : stepL s e = some s') (k : Nat) :
    ∃ ext, s'.enqOrder k = s.enqOrder k ++ ext := by
  cases e with
  | enq k' t' =>
    obtain ⟨_, rfl⟩ := stepL_enq_inv h
    by_cases hk' : k = k'
    · subst hk'
      exact ⟨[t'], by simp only [Function.update_same]⟩
    · exact ⟨[], by simp only [Function.update_noteq (fun heq => hk' heq), List.append_nil]⟩
  | start t' =>
    obtain ⟨k', _, _, _, rfl⟩ := stepL_start_inv h
    exact ⟨[], by simp⟩
  | finish t' ok =>
    obtain ⟨k', _, _, rfl⟩ := stepL_finish_inv h
    exact ⟨[], by simp⟩

theorem runL_enqOrder_extend {s s' : LaneState} {l : List LaneEv}
    (h : runM stepL s l = some s') (k : Nat) :
    ∃ ext, s'.enqOrder k = s.enqOrder k ++ ext := by
  induction l generalizing s with
  | nil => rw [runM_nil] at h; cases h; exact ⟨[], by simp⟩
  | cons e es ih =>
    rw [runM_cons] at h
    cases hx : stepL s e with
    | none => rw [hx] at h; simp at h
    | some s₁ =>
      rw [hx] at h
      simp only [Option.some_bind] at h
      obtain ⟨ext1, he1⟩ := stepL_enqOrder_extend hx k
      obtain ⟨ext2, he2⟩ := ih h
      exact ⟨ext1 ++ ext2, by rw [he2, he1, List.append_assoc]⟩

theorem stepL_done_estab {s s' : LaneState} {e : LaneEv} {k t : Nat}
    (h : stepL s e = some s') (hmem : t ∈ s'.done k) :
    t ∈ s.done k ∨ ∃ ok, e = LaneEv.finish t ok := by
  cases e with
  | enq k' t' =>
    obtain ⟨_, rfl⟩ := stepL_enq_inv h
    exact Or.inl hmem
  | start t' =>
    obtain ⟨k', _, _, _, rfl⟩ := stepL_start_inv h
    exact Or.inl hmem
  | finish t' ok =>
    obtain ⟨k', _, _, rfl⟩ := stepL_finish_inv h
    simp only at hmem
    by_cases hk' : k = k'
    · subst hk'
      rw [Function.update_same] at hmem
      rcases List.mem_append.mp hmem with hm | hm
      · exact Or.inl hm
      · exact Or.inr ⟨ok, by rw [List.mem_singleton.mp hm]⟩
    · rw [Function.update_noteq (fun heq => hk' heq)] at hmem
      exact Or.inl hmem

theorem stepL_running_persist {s s' : LaneState} {e : LaneEv} {k t : Nat}
    (h : stepL s e = some s') (hP : s.running k = some t)
    (hE : ∀ ok, e ≠ LaneEv.finish t ok) : s'.running k = some t := by
  cases e with
  | enq k' t' =>
    obtain ⟨_, rfl⟩ := stepL_enq_inv h
    exact hP
  | start t' =>
    obtain ⟨k', _, hrun, _, rfl⟩ := stepL_start_inv h
    have hkk : k ≠ k' := fun heq => by rw [← heq, hP] at hrun; cases hrun
    simp only [Function.update_noteq hkk]
    exact hP
  | finish t' ok =>
    obtain ⟨k', _, hrun, rfl⟩ := stepL_finish_inv h
    have hkk : k ≠ k' := by
      intro heq
      rw [← heq, hP] at hrun
      exact hE ok (by rw [Option.some.inj hrun])
    simp only [Function.update_noteq hkk]
    exact hP

/- ================================================================
   Positional execution helpers
   ================================================================ -/

/-- At a valid trace position `p`, expose the pre-state, the successful step
and the post-state. -/
theorem runM_at {σ ε : Type} (step : σ → ε → Option σ) (init : σ) {tr : List ε} {sFin : σ}
    (h : runM step init tr = some sFin) {p : ℕ} {e : ε} (he : tr[p]? = some e) :
    ∃ sp sp', runM step init (tr.take p) = some sp ∧ step sp e = some sp' ∧
      runM step init (tr.take (p + 1)) = some sp' := by
  obtain ⟨s1, h1⟩ := runM_take_isSome step init tr sFin h (p + 1)
  have h2 := runM_take_succ step init tr p e he
  rw [h1] at h2
  cases hx : runM step init (tr.take p) with
  | none => rw [hx] at h2; simp at h2
  | some sp =>
    rw [hx] at h2
    simp only [Option.some_bind] at h2
    exact ⟨sp, s1, rfl, h2.symm, h1⟩

/-- Execution between two prefix states runs exactly the events of the
half-open position segment. -/
theorem runM_seg {σ ε : Type} (step : σ → ε → Option σ) (init : σ) {tr : List ε}
    {a b : ℕ} (hab : a ≤ b) {sa sb : σ}
    (ha : runM step init (tr.take a) = some sa)
    (hb : runM step init (tr.take b) = some sb) :
    runM step sa ((tr.take b).drop a) = some sb := by
  have hdecomp : tr.take b = tr.take a ++ (tr.take b).drop a := by
    conv_lhs => rw [← List.take_append_drop a (tr.take b)]
    rw [List.take_take, Nat.min_eq_left hab]
  rw [hdecomp, runM_append, ha] at hb
  simpa using hb

/-- A member of a position segment occurs at a trace position inside that
segment. -/
theorem seg_mem_pos {α : Type} {tr : List α} {a b : ℕ} {e : α}
    (he : e ∈ (tr.take b).drop a) :
    ∃ m, a ≤ m ∧ m < b ∧ tr[m]? = some e := by
  rcases mem_idx he with ⟨j, hj⟩
  rw [drop_idx] at hj
  have hlt : a + j < (tr.take b).length := idx_some_lt hj
  have hb : a + j < b := lt_of_lt_of_le hlt (by simp)
  rw [take_idx tr b (a + j) hb] at hj
  exact ⟨a + j, Nat.le_add_right a j, hb, hj⟩

/- ================================================================
   Lane queue trace lemmas
   ================================================================ -/

/-- Any valid prefix state satisfies the lane invariant. -/
theorem lane_inv_at {tr : List LaneEv} {n : ℕ} {sp : LaneState}
    (hsp : runM stepL laneInit (tr.take n) = some sp) : LaneInv sp :=
  runM_inv stepL LaneInv (fun _ _ _ hInv h => stepL_inv hInv h) hsp laneInit_inv

/-- A task whose key is assigned at some prefix state was enqueued strictly
earlier than that prefix. -/
theorem lane_enq_lt {tr : List LaneEv} {sFin : LaneState}
    (hFin : runM stepL laneInit tr = some sFin)
    {j : ℕ} {k t : Nat} (hj : tr[j]? = some (.enq k t))
    {p : ℕ} {sp : LaneState} (hsp : runM stepL laneInit (tr.take p) = some sp)
    (hsome : (sp.keyOf t).isSome = true) : j < p := by
  by_contra hle
  push_neg at hle
  obtain ⟨sj, sj', hsj, hstepj, _⟩ := runM_at stepL laneInit hFin hj
  have hseg := runM_seg stepL laneInit hle hsp hsj
  have hs : (sj.keyOf t).isSome = true :=
    runM_inv stepL (fun s => (s.keyOf t).isSome = true)
      (fun _ _ _ hP h => stepL_keyOf_isSome h hP) hseg hsome
  obtain ⟨hfresh, _⟩ := stepL_enq_inv hstepj
  rw [hfresh] at hs
  cases hs

/-- After its enqueue event, a task's key is fixed at every later prefix. -/
theorem lane_keyOf_at {tr : List LaneEv} {sFin : LaneState}
    (hFin : runM stepL laneInit tr = some sFin)
    {j : ℕ} {k t : Nat} (hj : tr[j]? = some (.enq k t))
    {p : ℕ} {sp : LaneState} (hsp : runM stepL laneInit (tr.take p) = some sp)
    (hjp : j < p) : sp.keyOf t = some k := by
  obtain ⟨sj, sj', hsj, hstepj, hsj'⟩ := runM_at stepL laneInit hFin hj
  obtain ⟨hfresh, heq⟩ := stepL_enq_inv hstepj
  have hpost : sj'.keyOf t = some k := by
    rw [heq]; simp [Function.update_same]
  have hseg := runM_seg stepL laneInit (Nat.succ_le_of_lt hjp) hsj' hsp
  exact runM_inv stepL (fun s => s.keyOf t = some k)
    (fun _ _ _ hP h => stepL_keyOf_persist h hP) hseg hpost

/-- After its enqueue event, a task belongs to its key's arrival history at
every later prefix. -/
theorem lane_enqOrder_mem_at {tr : List LaneEv} {sFin : LaneState}
    (hFin : runM stepL laneInit tr = some sFin)
    {i : ℕ} {k t : Nat} (hi : tr[i]? = some (.enq k t))
    {p : ℕ} {sp : LaneState} (hsp : runM stepL laneInit (tr.take p) = some sp)
    (hip : i < p) : t ∈ sp.enqOrder k := by
  obtain ⟨si, si', hsi, hstepi, hsi'⟩ := runM_at stepL laneInit hFin hi
  obtain ⟨hfresh, heq⟩ := stepL_enq_inv hstepi
  have hpost : t ∈ si'.enqOrder k := by
    rw [heq]; simp [Function.update_same]
  have hseg := runM_seg stepL laneInit (Nat.succ_le_of_lt hip) hsi' hsp
  exact runM_inv stepL (fun s => t ∈ s.enqOrder k)
    (fun _ _ _ hP h => stepL_enqOrder_mem h hP) hseg hpost

/-- C2: per-lane FIFO with mutual exclusion. For two tasks `t1`, `t2`
enqueued in that order under the same lane key, (a) `t2` can only start after
`t1` has fully finished (success or failure), and (b) if both start, no start
of `t2` occurs between the start of `t1` and the finish of `t1`: a finish of
`t1` separates them, so at most one task of the lane executes at any time and
tasks complete in arrival order. -/
theorem laneQueue_fifo_mutex (tr : List LaneEv)
    (hrun : (runM stepL laneInit tr).isSome = true)
    (k t1 t2 : Nat) (i j : ℕ) (hij : i < j) (_ht12 : t1 ≠ t2)
    (hi : tr[i]? = some (LaneEv.enq k t1)) (hj : tr[j]? = some (LaneEv.enq k t2)) :
    (∀ p : ℕ, tr[p]? = some (LaneEv.start t2) →
      ∃ (m : ℕ) (ok : Bool), m < p ∧ tr[m]? = some (LaneEv.finish t1 ok)) ∧
    (∀ p q : ℕ, tr[p]? = some (LaneEv.start t1) → tr[q]? = some (LaneEv.start t2) → p < q →
      ∃ (m : ℕ) (ok : Bool), p < m ∧ m < q ∧ tr[m]? = some (LaneEv.finish t1 ok)) := by
  obtain ⟨sFin, hFin⟩ := Option.isSome_iff_exists.mp hrun
  constructor
  · -- FIFO order: a start of t2 is preceded by a finish of t1
    intro p hp
    obtain ⟨sp, sp', hsp, hstepp, hsp'⟩ := runM_at stepL laneInit hFin hp
    obtain ⟨k2, hk2, hrunnone, hhead, _⟩ := stepL_start_inv hstepp
    have hjp : j < p := lane_enq_lt hFin hj hsp (by rw [hk2]; rfl)
    have hip : i < p := lt_trans hij hjp
    have hk2k : k = k2 := by
      have := lane_keyOf_at hFin hj hsp hjp
      rw [hk2] at this
      exact (Option.some.inj this).symm
    subst hk2k
    -- state at position j
    obtain ⟨sj, sj', hsj, hstepj, hsj'⟩ := runM_at stepL laneInit hFin hj
    obtain ⟨hfreshj, heqj⟩ := stepL_enq_inv hstepj
    have ht1_at_j : t1 ∈ sj.enqOrder k := lane_enqOrder_mem_at hFin hi hsj hij
    have hInv_j : LaneInv sj := lane_inv_at hsj
    have ht2notin : t2 ∉ sj.enqOrder k := fun hmem => by
      rw [hInv_j.2.1 k t2 hmem] at hfreshj
      cases hfreshj
    have hpostj : sj'.enqOrder k = sj.enqOrder k ++ [t2] := by
      rw [heqj]; simp [Function.update_same]
    have hseg_jp := runM_seg stepL laneInit (Nat.succ_le_of_lt hjp) hsj' hsp
    obtain ⟨ext, hext⟩ := runL_enqOrder_extend hseg_jp k
    have hInv_p : LaneInv sp := lane_inv_at hsp
    obtain ⟨tl, hwl⟩ : ∃ tl, sp.waiting k = t2 :: tl := by
      cases hx : sp.waiting k with
      | nil => rw [hx] at hhead; cases hhead
      | cons a l =>
        rw [hx] at hhead
        simp only [List.head?_cons, Option.some.injEq] at hhead
        exact ⟨l, by rw [hhead]⟩
    have hsplit1 : sp.enqOrder k = sp.done k ++ t2 :: tl := by
      rw [hInv_p.1 k, hrunnone, hwl]
      simp
    have hnodup := hInv_p.2.2 k
    have ht2nd : t2 ∉ sp.done k := by
      rw [hsplit1] at hnodup
      intro hmem
      exact (List.disjoint_of_nodup_append hnodup) hmem (List.mem_cons_self _ _)
    have heq2 : sp.done k ++ t2 :: tl = sj.enqOrder k ++ t2 :: ext := by
      rw [← hsplit1, hext, hpostj]
      simp
    have hdone_eq : sp.done k = sj.enqOrder k :=
      split_unique _ _ _ _ _ heq2 ht2nd ht2notin
    have ht1done : t1 ∈ sp.done k := by rw [hdone_eq]; exact ht1_at_j
    have hest := runM_estab stepL (fun s => t1 ∈ s.done k)
      (fun e => ∃ ok, e = LaneEv.finish t1 ok)
      (fun _ e _ h hP => stepL_done_estab h hP) hsp ht1done
    rcases hest with h0 | ⟨e, hmem, ok, hefin⟩
    · simp [laneInit] at h0
    · obtain ⟨m, hmp, hm⟩ := mem_take_idx hmem
      subst hefin
      exact ⟨m, ok, hmp, hm⟩
  · -- mutual exclusion: the executions of t1 and t2 do not interleave
    intro p q hp hq hpq
    obtain ⟨sq, sq', hsq, hstepq, _⟩ := runM_at stepL laneInit hFin hq
    obtain ⟨k2, hk2, hrunnone_q, hheadq, _⟩ := stepL_start_inv hstepq
    have hjq : j < q := lane_enq_lt hFin hj hsq (by rw [hk2]; rfl)
    have hk2k : k = k2 := by
      have := lane_keyOf_at hFin hj hsq hjq
      rw [hk2] at this
      exact (Option.some.inj this).symm
    subst hk2k
    obtain ⟨sp, sp', hsp, hstepp, hsp'⟩ := runM_at stepL laneInit hFin hp
    obtain ⟨k1, hk1, hrunnone_p, hheadp, heqp⟩ := stepL_start_inv hstepp
    have hipp : i < p := lane_enq_lt hFin hi hsp (by rw [hk1]; rfl)
    have hk1k : k = k1 := by
      have := lane_keyOf_at hFin hi hsp hipp
      rw [hk1] at this
      exact (Option.some.inj this).symm
    subst hk1k
    have hpost_run : sp'.running k = some t1 := by
      rw [heqp]; simp [Function.update_same]
    by_contra hcon
    push_neg at hcon
    have hseg := runM_seg stepL laneInit (Nat.succ_le_of_lt hpq) hsp' hsq
    have hrun_q : sq.running k = some t1 := by
      refine runM_persist stepL (fun s => s.running k = some t1)
        (fun e => ∃ ok, e = LaneEv.finish t1 ok)
        (fun _ e _ h hP hE =>
          stepL_running_persist h hP (fun ok heq => hE ⟨ok, heq⟩))
        hseg hpost_run ?_
      intro e hmem hE
      obtain ⟨ok, rfl⟩ := hE
      obtain ⟨m, hm1, hm2, hm3⟩ := seg_mem_pos hmem
      exact hcon m ok (by omega) hm2 hm3
    rw [hrun_q] at hrunnone_q
    cases hrunnone_q

/-- A concrete valid lane trace: two tasks of lane 1, run in order. -/
def laneTraceW : List LaneEv :=
  [LaneEv.enq 1 10, LaneEv.enq 1 11, LaneEv.start 10, LaneEv.finish 10 true,
    LaneEv.start 11, LaneEv.finish 11 false]

/-- Witness for C2 at a concrete trace. -/
theorem laneQueue_fifo_mutex_witness :
    (∃ (m : ℕ) (ok : Bool), m < 4 ∧ laneTraceW[m]? = some (LaneEv.finish 10 ok)) ∧
    (∃ (m : ℕ) (ok : Bool), 2 < m ∧ m < 4 ∧ laneTraceW[m]? = some (LaneEv.finish 10 ok)) := by
  have h := laneQueue_fifo_mutex laneTraceW (by decide) 1 10 11 0 1 (by omega)
    (by omega) (by decide) (by decide)
  exact ⟨h.1 4 (by decide), h.2 2 4 (by decide) (by decide) (by omega)⟩

/- ================================================================
   Agent.run nested lane composition (claim C1)
   ================================================================ -/

/-- Events of one `Agent.run` invocation (`src/agent.ts:416-427` composed
with the spec's lane queue, `command-queue.ts` not being under `src/`):
`callRun r` is the call to `Agent.run` enqueueing the outer callback in the
run's session lane; `startOuter r` is the session lane starting that
callback, whose body (`enqGlobal r`) enqueues the agent pipeline in the
single shared global lane; `startPipeline r` / `endPipeline r` delimit the
pipeline execution under the global lane; `settleOuter r` settles the outer
callback (after its inner promise resolved), freeing the session lane. -/
inductive AgentEv
  | callRun (r : Nat)
  | startOuter (r : Nat)
  | enqGlobal (r : Nat)
  | startPipeline (r : Nat)
  | endPipeline (r : Nat)
  | settleOuter (r : Nat)
deriving DecidableEq

/-- Phase of a single run, in causal order. -/
inductive RPhase
  | idle
  | outerQueued
  | outerActive
  | innerQueued
  | innerActive
  | innerDone
  | settled
deriving DecidableEq

/-- State of the session lanes (keyed by session) and the shared global lane,
with ghost arrival (`sOrder`) and completion (`sDone`) histories per
session. -/
structure AgentQState where
  phase : Nat → RPhase
  sQueue : Nat → List Nat
  sRunning : Nat → Option Nat
  gQueue : List Nat
  gRunning : Option Nat
  sOrder : Nat → List Nat
  sDone : Nat → List Nat

def agentInit : AgentQState :=
  ⟨fun _ => .idle, fun _ => [], fun _ => none, [], none, fun _ => [], fun _ => []⟩

/-- One step of the nested lane machine; `sk` maps a run to its session key
(`resolveSessionLane (sessionKey)`), while every run shares the one global
lane (`resolveGlobalLane()`). -/
def stepA (sk : Nat → Nat) (s : AgentQState) : AgentEv → Option AgentQState
  | .callRun r =>
    if s.phase r = .idle then
      some { s with
        phase := Function.update s.phase r .outerQueued,
        sQueue := Function.update s.sQueue (sk r) (s.sQueue (sk r) ++ [r]),
        sOrder := Function.update s.sOrder (sk r) (s.sOrder (sk r) ++ [r]) }
    else none
  | .startOuter r =>
    if s.phase r = .outerQueued ∧ s.sRunning (sk r) = none ∧
        (s.sQueue (sk r)).head? = some r then
      some { s with
        phase := Function.update s.phase r .outerActive,
        sQueue := Function.update s.sQueue (sk r) (s.sQueue (sk r)).tail,
        sRunning := Function.update s.sRunning (sk r) (some r) }
    else none
  | .enqGlobal r =>
    if s.phase r = .outerActive then
      some { s with
        phase := Function.update s.phase r .innerQueued,
        gQueue := s.gQueue ++ [r] }
    else none
  | .startPipeline r =>
    if s.phase r = .innerQueued ∧ s.gRunning = none ∧ s.gQueue.head? = some r then
      some { s with
        phase := Function.update s.phase r .innerActive,
        gQueue := s.gQueue.tail,
        gRunning := some r }
    else none
  | .endPipeline r =>
    if s.phase r = .innerActive ∧ s.gRunning = some r then
      some { s with
        phase := Function.update s.phase r .innerDone,
        gRunning := none }
    else none
  | .settleOuter r =>
    if s.phase r = .innerDone ∧ s.sRunning (sk r) = some r then
      some { s with
        phase := Function.update s.phase r .settled,
        sRunning := Function.update s.sRunning (sk r) none,
        sDone := Function.update s.sDone (sk r) (s.sDone (sk r) ++ [r]) }
    else none

theorem stepA_callRun_inv {sk : Nat → Nat} {s s' : AgentQState} {r : Nat}
    (h : stepA sk s (.callRun r) = some s') :
    s.phase r = .idle ∧
    s' = { s with
      phase := Function.update s.phase r .outerQueued,
      sQueue := Function.update s.sQueue (sk r) (s.sQueue (sk r) ++ [r]),
      sOrder := Function.update s.sOrder (sk r) (s.sOrder (sk r) ++ [r]) } := by
  simp only [stepA] at h
  split at h
  · exact ⟨by assumption, (Option.some.inj h).symm⟩
  · simp at h

theorem stepA_startOuter_inv {sk : Nat → Nat} {s s' : AgentQState} {r : Nat}
    (h : stepA sk s (.startOuter r) = some s') :
    (s.phase r = .outerQueued ∧ s.sRunning (sk r) = none ∧
      (s.sQueue (sk r)).head? = some r) ∧
    s' = { s with
      phase := Function.update s.phase r .outerActive,
      sQueue := Function.update s.sQueue (sk r) (s.sQueue (sk r)).tail,
      sRunning := Function.update s.sRunning (sk r) (some r) } := by
  simp only [stepA] at h
  split at h
  · exact ⟨by assumption, (Option.some.inj h).symm⟩
  · simp at h

theorem stepA_enqGlobal_inv {sk : Nat → Nat} {s s' : AgentQState} {r : Nat}
    (h : stepA sk s (.enqGlobal r) = some s') :
    s.phase r = .outerActive ∧
    s' = { s with
      phase := Function.update s.phase r .innerQueued,
      gQueue := s.gQueue ++ [r] } := by
  simp only [stepA] at h
  split at h
  · exact ⟨by assumption, (Option.some.inj h).symm⟩
  · simp at h

theorem stepA_startPipeline_inv {sk : Nat → Nat} {s s' : AgentQState} {r : Nat}
    (h : stepA sk s (.startPipeline r) = some s') :
    (s.phase r = .innerQueued ∧ s.gRunning = none ∧ s.gQueue.head? = some r) ∧
    s' = { s with
      phase := Function.update s.phase r .innerActive,
      gQueue := s.gQueue.tail,
      gRunning := some r } := by
  simp only [stepA] at h
  split at h
  · exact ⟨by assumption, (Option.some.inj h).symm⟩
  · simp at h

theorem stepA_endPipeline_inv {sk : Nat → Nat} {s s' : AgentQState} {r : Nat}
    (h : stepA sk s (.endPipeline r) = some s') :
    (s.phase r = .innerActive ∧ s.gRunning = some r) ∧
    s' = { s with
      phase := Function.update s.phase r .innerDone,
      gRunning := none } := by
  simp only [stepA] at h
  split at h
  · exact ⟨by assumption, (Option.some.inj h).symm⟩
  · simp at h

theorem stepA_settleOuter_inv {sk : Nat → Nat} {s s' : AgentQState} {r : Nat}
    (h : stepA sk s (.settleOuter r) = some s') :
    (s.phase r = .innerDone ∧ s.sRunning (sk r) = some r) ∧
    s' = { s with
      phase := Function.update s.phase r .settled,
      sRunning := Function.update s.sRunning (sk r) none,
      sDone := Function.update s.sDone (sk r) (s.sDone (sk r) ++ [r]) } := by
  simp only [stepA] at h
  split at h
  · exact ⟨by assumption, (Option.some.inj h).symm⟩
  · simp at h

/-- Causal rank of a run's phase. -/
def rank : RPhase → Nat
  | .idle => 0
  | .outerQueued => 1
  | .outerActive => 2
  | .innerQueued => 3
  | .innerActive => 4
  | .innerDone => 5
  | .settled => 6

/-- The unique event of run `r` that raises its rank to `n`. -/
def milestoneEv (r : Nat) : Nat → AgentEv
  | 1 => .callRun r
  | 2 => .startOuter r
  | 3 => .enqGlobal r
  | 4 => .startPipeline r
  | 5 => .endPipeline r
  | _ => .settleOuter r

/-- The run an event belongs to. -/
def evRun : AgentEv → Nat
  | .callRun r => r
  | .startOuter r => r
  | .enqGlobal r => r
  | .startPipeline r => r
  | .endPipeline r => r
  | .settleOuter r => r

theorem stepA_phase_other {sk : Nat → Nat} {s s' : AgentQState} {e : AgentEv} {r : Nat}
    (h : stepA sk s e = some s') (hr : evRun e ≠ r) : s'.phase r = s.phase r := by
  cases e with
  | callRun r' =>
    obtain ⟨_, rfl⟩ := stepA_callRun_inv h
    exact Function.update_noteq (fun heq => hr heq.symm) _ _
  | startOuter r' =>
    obtain ⟨_, rfl⟩ := stepA_startOuter_inv h
    exact Function.update_noteq (fun heq => hr heq.symm) _ _
  | enqGlobal r' =>
    obtain ⟨_, rfl⟩ := stepA_enqGlobal_inv h
    exact Function.update_noteq (fun heq => hr heq.symm) _ _
  | startPipeline r' =>
    obtain ⟨_, rfl⟩ := stepA_startPipeline_inv h
    exact Function.update_noteq (fun heq => hr heq.symm) _ _
  | endPipeline r' =>
    obtain ⟨_, rfl⟩ := stepA_endPipeline_inv h
    exact Function.update_noteq (fun heq => hr heq.symm) _ _
  | settleOuter r' =>
    obtain ⟨_, rfl⟩ := stepA_settleOuter_inv h
    exact Function.update_noteq (fun heq => hr heq.symm) _ _

theorem stepA_rank_mono {sk : Nat → Nat} {s s' : AgentQState} {e : AgentEv} {r : Nat}
    (h : stepA sk s e = some s') : rank (s.phase r) ≤ rank (s'.phase r) := by
  by_cases hr : evRun e = r
  · cases e with
    | callRun r' =>
      obtain ⟨hg, rfl⟩ := stepA_callRun_inv h
      simp only [evRun] at hr
      subst hr
      simp only [Function.update_same, hg, rank]
      omega
    | startOuter r' =>
      obtain ⟨hg, rfl⟩ := stepA_startOuter_inv h
      simp only [evRun] at hr
      subst hr
      simp only [Function.update_same, hg.1, rank]
      omega
    | enqGlobal r' =>
      obtain ⟨hg, rfl⟩ := stepA_enqGlobal_inv h
      simp only [evRun] at hr
      subst hr
      simp only [Function.update_same, hg, rank]
      omega
    | startPipeline r' =>
      obtain ⟨hg, rfl⟩ := stepA_startPipeline_inv h
      simp only [evRun] at hr
      subst hr
      simp only [Function.update_same, hg.1, rank]
      omega
    | endPipeline r' =>
      obtain ⟨hg, rfl⟩ := stepA_endPipeline_inv h
      simp only [evRun] at hr
      subst hr
      simp only [Function.update_same, hg.1, rank]
      omega
    | settleOuter r' =>
      obtain ⟨hg, rfl⟩ := stepA_settleOuter_inv h
      simp only [evRun] at hr
      subst hr
      simp only [Function.update_same, hg.1, rank]
      omega
  · rw [stepA_phase_other h hr]

theorem stepA_rank_estab {sk : Nat → Nat} {s s' : AgentQState} {e : AgentEv} {r n : Nat}
    (h : stepA sk s e = some s') (h1 : 1 ≤ n)
    (hP : n ≤ rank (s'.phase r)) : n ≤ rank (s.phase r) ∨ e = milestoneEv r n := by
  by_cases hr : evRun e = r
  · cases e with
    | callRun r' =>
      obtain ⟨hg, rfl⟩ := stepA_callRun_inv h
      simp only [evRun] at hr
      subst hr
      simp only [Function.update_same, rank] at hP
      by_cases hc : n ≤ rank (s.phase r')
      · exact Or.inl hc
      · rw [hg, rank] at hc
        have hn : n = 1 := by omega
        subst hn
        exact Or.inr rfl
    | startOuter r' =>
      obtain ⟨hg, rfl⟩ := stepA_startOuter_inv h
      simp only [evRun] at hr
      subst hr
      simp only [Function.update_same, rank] at hP
      by_cases hc : n ≤ rank (s.phase r')
      · exact Or.inl hc
      · rw [hg.1, rank] at hc
        have hn : n = 2 := by omega
        subst hn
        exact Or.inr rfl
    | enqGlobal r' =>
      obtain ⟨hg, rfl⟩ := stepA_enqGlobal_inv h
      simp only [evRun] at hr
      subst hr
      simp only [Function.update_same, rank] at hP
      by_cases hc : n ≤ rank (s.phase r')
      · exact Or.inl hc
      · rw [hg, rank] at hc
        have hn : n = 3 := by omega
        subst hn
        exact Or.inr rfl
    | startPipeline r' =>
      obtain ⟨hg, rfl⟩ := stepA_startPipeline_inv h
      simp only [evRun] at hr
      subst hr
      simp only [Function.update_same, rank] at hP
      by_cases hc : n ≤ rank (s.phase r')
      · exact Or.inl hc
      · rw [hg.1, rank] at hc
        have hn : n = 4 := by omega
        subst hn
        exact Or.inr rfl
    | endPipeline r' =>
      obtain ⟨hg, rfl⟩ := stepA_endPipeline_inv h
      simp only [evRun] at hr
      subst hr
      simp only [Function.update_same, rank] at hP
      by_cases hc : n ≤ rank (s.phase r')
      · exact Or.inl hc
      · rw [hg.1, rank] at hc
        have hn : n = 5 := by omega
        subst hn
        exact Or.inr rfl
    | settleOuter r' =>
      obtain ⟨hg, rfl⟩ := stepA_settleOuter_inv h
      simp only [evRun] at hr
      subst hr
      simp only [Function.update_same, rank] at hP
      by_cases hc : n ≤ rank (s.phase r')
      · exact Or.inl hc
      · rw [hg.1, rank] at hc
        have hn : n = 6 := by omega
        subst hn
        exact Or.inr rfl
  · rw [stepA_phase_other h hr] at hP
    exact Or.inl hP

theorem stepA_gRunning_persist {sk : Nat → Nat} {s s' : AgentQState} {e : AgentEv} {r : Nat}
    (h : stepA sk s e = some s') (hP : s.gRunning = some r)
    (hE : e ≠ .endPipeline r) : s'.gRunning = some r := by
  cases e with
  | callRun r' =>
    obtain ⟨_, rfl⟩ := stepA_callRun_inv h
    exact hP
  | startOuter r' =>
    obtain ⟨_, rfl⟩ := stepA_startOuter_inv h
    exact hP
  | enqGlobal r' =>
    obtain ⟨_, rfl⟩ := stepA_enqGlobal_inv h
    exact hP
  | startPipeline r' =>
    obtain ⟨hg, rfl⟩ := stepA_startPipeline_inv h
    rw [hP] at hg
    cases hg.2.1
  | endPipeline r' =>
    obtain ⟨hg, rfl⟩ := stepA_endPipeline_inv h
    rw [hP] at hg
    exact absurd (by rw [Option.some.inj hg.2]) hE
  | settleOuter r' =>
    obtain ⟨_, rfl⟩ := stepA_settleOuter_inv h
    exact hP

/-- Session-lane bookkeeping invariant of the nested machine. -/
def AgentInv (sk : Nat → Nat) (s : AgentQState) : Prop :=
  (∀ c, s.sOrder c = s.sDone c ++ (s.sRunning c).toList ++ s.sQueue c) ∧
  (∀ c r, r ∈ s.sOrder c → sk r = c ∧ s.phase r ≠ .idle) ∧
  (∀ c, (s.sOrder c).Nodup) ∧
  (∀ c r, r ∈ s.sDone c → s.phase r = .settled)

theorem agentInit_inv (sk : Nat → Nat) : AgentInv sk agentInit := by
  refine ⟨fun c => rfl, fun c r h => ?_, fun c => List.nodup_nil, fun c r h => ?_⟩ <;>
    simp [agentInit] at h

theorem stepA_inv {sk : Nat → Nat} {s s' : AgentQState} {e : AgentEv}
    (hInv : AgentInv sk s) (h : stepA sk s e = some s') : AgentInv sk s' := by
  obtain ⟨h1, h2, h3, h4⟩ := hInv
  cases e with
  | callRun r =>
    obtain ⟨hg, rfl⟩ := stepA_callRun_inv h
    refine ⟨fun c => ?_, fun c r' hr' => ?_, fun c => ?_, fun c r' hr' => ?_⟩
    · by_cases hc : c = sk r
      · subst hc
        simp only [Function.update_same]
        rw [h1 (sk r)]
        simp [List.append_assoc]
      · simp only [Function.update_noteq hc]
        exact h1 c
    · simp only at hr'
      by_cases hc : c = sk r
      · subst hc
        rw [Function.update_same] at hr'
        rcases List.mem_append.mp hr' with hm | hm
        · obtain ⟨hsk', hph⟩ := h2 _ _ hm
          refine ⟨hsk', ?_⟩
          by_cases hrr : r' = r
          · subst hrr
            simp [Function.update_same]
          · simp only [Function.update_noteq hrr]
            exact hph
        · have heq : r' = r := List.mem_singleton.mp hm
          subst heq
          exact ⟨rfl, by simp [Function.update_same]⟩
      · rw [Function.update_noteq hc] at hr'
        obtain ⟨hsk', hph⟩ := h2 _ _ hr'
        refine ⟨hsk', ?_⟩
        by_cases hrr : r' = r
        · subst hrr
          simp [Function.update_same]
        · simp only [Function.update_noteq hrr]
          exact hph
    · by_cases hc : c = sk r
      · subst hc
        simp only [Function.update_same]
        rw [List.nodup_append]
        refine ⟨h3 _, List.nodup_singleton r, fun a ha hat => ?_⟩
        rw [List.mem_singleton.mp hat] at ha
        exact (h2 _ _ ha).2 hg
      · simp only [Function.update_noteq hc]
        exact h3 c
    · simp only at hr'
      have hph := h4 _ _ hr'
      by_cases hrr : r' = r
      · subst hrr
        rw [hph] at hg
        cases hg
      · simp only [Function.update_noteq hrr]
        exact hph
  | startOuter r =>
    obtain ⟨⟨hph, hrun, hhead⟩, rfl⟩ := stepA_startOuter_inv h
    refine ⟨fun c => ?_, fun c r' hr' => ?_, h3, fun c r' hr' => ?_⟩
    · by_cases hc : c = sk r
      · subst hc
        obtain ⟨tl, hw⟩ : ∃ tl, s.sQueue (sk r) = r :: tl := by
          cases hx : s.sQueue (sk r) with
          | nil => rw [hx] at hhead; cases hhead
          | cons a l =>
            rw [hx] at hhead
            simp only [List.head?_cons, Option.some.injEq] at hhead
            exact ⟨l, by rw [hhead]⟩
        simp only [Function.update_same]
        rw [h1 (sk r), hrun, hw]
        simp
      · simp only [Function.update_noteq hc]
        exact h1 c
    · simp only at hr'
      obtain ⟨hsk', hph'⟩ := h2 _ _ hr'
      refine ⟨hsk', ?_⟩
      by_cases hrr : r' = r
      · subst hrr
        simp [Function.update_same]
      · simp only [Function.update_noteq hrr]
        exact hph'
    · simp only at hr'
      have hd := h4 _ _ hr'
      by_cases hrr : r' = r
      · subst hrr
        rw [hd] at hph
        cases hph
      · simp only [Function.update_noteq hrr]
        exact hd
  | enqGlobal r =>
    obtain ⟨hph, rfl⟩ := stepA_enqGlobal_inv h
    refine ⟨h1, fun c r' hr' => ?_, h3, fun c r' hr' => ?_⟩
    · simp only at hr'
      obtain ⟨hsk', hph'⟩ := h2 _ _ hr'
      refine ⟨hsk', ?_⟩
      by_cases hrr : r' = r
      · subst hrr
        simp [Function.update_same]
      · simp only [Function.update_noteq hrr]
        exact hph'
    · simp only at hr'
      have hd := h4 _ _ hr'
      by_cases hrr : r' = r
      · subst hrr
        rw [hd] at hph
        cases hph
      · simp only [Function.update_noteq hrr]
        exact hd
  | startPipeline r =>
    obtain ⟨⟨hph, _, _⟩, rfl⟩ := stepA_startPipeline_inv h
    refine ⟨h1, fun c r' hr' => ?_, h3, fun c r' hr' => ?_⟩
    · simp only at hr'
      obtain ⟨hsk', hph'⟩ := h2 _ _ hr'
      refine ⟨hsk', ?_⟩
      by_cases hrr : r' = r
      · subst hrr
        simp [Function.update_same]
      · simp only [Function.update_noteq hrr]
        exact hph'
    · simp only at hr'
      have hd := h4 _ _ hr'
      by_cases hrr : r' = r
      · subst hrr
        rw [hd] at hph
        cases hph
      · simp only [Function.update_noteq hrr]
        exact hd
  | endPipeline r =>
    obtain ⟨⟨hph, _⟩, rfl⟩ := stepA_endPipeline_inv h
    refine ⟨h1, fun c r' hr' => ?_, h3, fun c r' hr' => ?_⟩
    · simp only at hr'
      obtain ⟨hsk', hph'⟩ := h2 _ _ hr'
      refine ⟨hsk', ?_⟩
      by_cases hrr : r' = r
      · subst hrr
        simp [Function.update_same]
      · simp only [Function.update_noteq hrr]
        exact hph'
    · simp only at hr'
      have hd := h4 _ _ hr'
      by_cases hrr : r' = r
      · subst hrr
        rw [hd] at hph
        cases hph
      · simp only [Function.update_noteq hrr]
        exact hd
  | settleOuter r =>
    obtain ⟨⟨hph, hrun⟩, rfl⟩ := stepA_settleOuter_inv h
    refine ⟨fun c => ?_, fun c r' hr' => ?_, h3, fun c r' hr' => ?_⟩
    · by_cases hc : c = sk r
      · subst hc
        simp only [Function.update_same]
        rw [h1 (sk r), hrun]
        simp
      · simp only [Function.update_noteq hc]
        exact h1 c
    · simp only at hr'
      obtain ⟨hsk', hph'⟩ := h2 _ _ hr'
      refine ⟨hsk', ?_⟩
      by_cases hrr : r' = r
      · subst hrr
        simp [Function.update_same]
      · simp only [Function.update_noteq hrr]
        exact hph'
    · simp only at hr'
      by_cases hc : c = sk r
      · subst hc
        rw [Function.update_same] at hr'
        rcases List.mem_append.mp hr' with hm | hm
        · have hd := h4 _ _ hm
          by_cases hrr : r' = r
          · subst hrr
            rw [hd] at hph
            cases hph
          · simp only [Function.update_noteq hrr]
            exact hd
        · have heq : r' = r := List.mem_singleton.mp hm
          subst heq
          simp [Function.update_same]
      · rw [Function.update_noteq hc] at hr'
        have hd := h4 _ _ hr'
        by_cases hrr : r' = r
        · subst hrr
          rw [hd] at hph
          cases hph
        · simp only [Function.update_noteq hrr]
          exact hd

theorem stepA_sOrder_mem {sk : Nat → Nat} {s s' : AgentQState} {e : AgentEv} {r c : Nat}
    (h : stepA sk s e = some s') (hP : r ∈ s.sOrder c) : r ∈ s'.sOrder c := by
  cases e with
  | callRun r' =>
    obtain ⟨_, rfl⟩ := stepA_callRun_inv h
    simp only
    by_cases hc : c = sk r'
    · subst hc
      rw [Function.update_same]
      exact List.mem_append_left _ hP
    · rw [Function.update_noteq hc]
      exact hP
  | startOuter r' =>
    obtain ⟨_, rfl⟩ := stepA_startOuter_inv h
    exact hP
  | enqGlobal r' =>
    obtain ⟨_, rfl⟩ := stepA_enqGlobal_inv h
    exact hP
  | startPipeline r' =>
    obtain ⟨_, rfl⟩ := stepA_startPipeline_inv h
    exact hP
  | endPipeline r' =>
    obtain ⟨_, rfl⟩ := stepA_endPipeline_inv h
    exact hP
  | settleOuter r' =>
    obtain ⟨_, rfl⟩ := stepA_settleOuter_inv h
    exact hP

theorem stepA_sOrder_extend {sk : Nat → Nat} {s s' : AgentQState} {e : AgentEv}
    (h : stepA sk s e = some s') (c : Nat) :
    ∃ ext, s'.sOrder c = s.sOrder c ++ ext := by
  cases e with
  | callRun r' =>
    obtain ⟨_, rfl⟩ := stepA_callRun_inv h
    by_cases hc : c = sk r'
    · subst hc
      exact ⟨[r'], by simp only [Function.update_same]⟩
    · exact ⟨[], by simp only [Function.update_noteq hc, List.append_nil]⟩
  | startOuter r' =>
    obtain ⟨_, rfl⟩ := stepA_startOuter_inv h
    exact ⟨[], by simp⟩
  | enqGlobal r' =>
    obtain ⟨_, rfl⟩ := stepA_enqGlobal_inv h
    exact ⟨[], by simp⟩
  | startPipeline r' =>
    obtain ⟨_, rfl⟩ := stepA_startPipeline_inv h
    exact ⟨[], by simp⟩
  | endPipeline r' =>
    obtain ⟨_, rfl⟩ := stepA_endPipeline_inv h
    exact ⟨[], by simp⟩
  | settleOuter r' =>
    obtain ⟨_, rfl⟩ := stepA_settleOuter_inv h
    exact ⟨[], by simp⟩

theorem runA_sOrder_extend {sk : Nat → Nat} {s s' : AgentQState} {l : List AgentEv}
    (h : runM (stepA sk) s l = some s') (c : Nat) :
    ∃ ext, s'.sOrder c = s.sOrder c ++ ext := by
  induction l generalizing s with
  | nil => rw [runM_nil] at h; cases h; exact ⟨[], by simp⟩
  | cons e es ih =>
    rw [runM_cons] at h
    cases hx : stepA sk s e with
    | none => rw [hx] at h; simp at h
    | some s₁ =>
      rw [hx] at h
      simp only [Option.some_bind] at h
      obtain ⟨ext1, he1⟩ := stepA_sOrder_extend hx c
      obtain ⟨ext2, he2⟩ := ih h
      exact ⟨ext1 ++ ext2, by rw [he2, he1, List.append_assoc]⟩

/-- Any valid prefix state of the nested machine satisfies its invariant. -/
theorem agent_inv_at {sk : Nat → Nat} {tr : List AgentEv} {n : ℕ} {sp : AgentQState}
    (hsp : runM (stepA sk) agentInit (tr.take n) = some sp) : AgentInv sk sp :=
  runM_inv (stepA sk) (AgentInv sk) (fun _ _ _ hI h => stepA_inv hI h) hsp (agentInit_inv sk)

/-- If a run has reached rank `n ≥ 1` at a prefix, the unique event raising it
to rank `n` occurs before that prefix. -/
theorem agent_rank_event {sk : Nat → Nat} {tr : List AgentEv}
    {p : ℕ} {sp : AgentQState} (hsp : runM (stepA sk) agentInit (tr.take p) = some sp)
    {r n : Nat} (h1 : 1 ≤ n) (hP : n ≤ rank (sp.phase r)) :
    ∃ m, m < p ∧ tr[m]? = some (milestoneEv r n) := by
  have hest := runM_estab (stepA sk) (fun s => n ≤ rank (s.phase r))
    (fun e => e = milestoneEv r n)
    (fun _ _ _ h hPP => stepA_rank_estab h h1 hPP) hsp hP
  rcases hest with h0 | ⟨e, hmem, rfl⟩
  · simp only [agentInit, rank] at h0
    omega
  · exact mem_take_idx hmem

/-- A run that has left `idle` by some prefix was called before that prefix. -/
theorem agent_call_lt {sk : Nat → Nat} {tr : List AgentEv} {sFin : AgentQState}
    (hFin : runM (stepA sk) agentInit tr = some sFin)
    {j r : ℕ} (hj : tr[j]? = some (.callRun r))
    {p : ℕ} {sp : AgentQState} (hsp : runM (stepA sk) agentInit (tr.take p) = some sp)
    (hpos : 1 ≤ rank (sp.phase r)) : j < p := by
  by_contra hle
  push_neg at hle
  obtain ⟨sj, sj', hsj, hstepj, _⟩ := runM_at (stepA sk) agentInit hFin hj
  have hseg := runM_seg (stepA sk) agentInit hle hsp hsj
  have hmono : 1 ≤ rank (sj.phase r) :=
    runM_inv (stepA sk) (fun s => 1 ≤ rank (s.phase r))
      (fun _ _ _ hP h => le_trans hP (stepA_rank_mono h)) hseg hpos
  obtain ⟨hidle, _⟩ := stepA_callRun_inv hstepj
  rw [hidle] at hmono
  simp [rank] at hmono

/-- After its `callRun` event, a run belongs to its session's arrival history
at every later prefix. -/
theorem agent_sOrder_mem_at {sk : Nat → Nat} {tr : List AgentEv} {sFin : AgentQState}
    (hFin : runM (stepA sk) agentInit tr = some sFin)
    {i r : ℕ} (hi : tr[i]? = some (.callRun r))
    {p : ℕ} {sp : AgentQState} (hsp : runM (stepA sk) agentInit (tr.take p) = some sp)
    (hip : i < p) : r ∈ sp.sOrder (sk r) := by
  obtain ⟨si, si', hsi, hstepi, hsi'⟩ := runM_at (stepA sk) agentInit hFin hi
  obtain ⟨_, heq⟩ := stepA_callRun_inv hstepi
  have hpost : r ∈ si'.sOrder (sk r) := by
    rw [heq]
    simp [Function.update_same]
  have hseg := runM_seg (stepA sk) agentInit (Nat.succ_le_of_lt hip) hsi' hsp
  exact runM_inv (stepA sk) (fun s => r ∈ s.sOrder (sk r))
    (fun _ _ _ hP h => stepA_sOrder_mem h hP) hseg hpost

/-- C1: `Agent.run` enqueues the pipeline under the session lane and, nested
inside it, under the single shared global lane. Consequently (a) the pipeline
executions of any two runs never overlap: between any two pipeline starts the
first pipeline has ended (process-wide mutual exclusion), and (b) two runs of
the same session execute in arrival order: the earlier run's pipeline has
ended before the later run's pipeline starts. -/
theorem agent_run_serialization (sk : Nat → Nat) (tr : List AgentEv)
    (hrun : (runM (stepA sk) agentInit tr).isSome = true) :
    (∀ r1 r2 p q : ℕ, tr[p]? = some (AgentEv.startPipeline r1) →
      tr[q]? = some (AgentEv.startPipeline r2) → p < q →
      ∃ m : ℕ, p < m ∧ m < q ∧ tr[m]? = some (AgentEv.endPipeline r1)) ∧
    (∀ r1 r2 i j p : ℕ, sk r1 = sk r2 →
      tr[i]? = some (AgentEv.callRun r1) → tr[j]? = some (AgentEv.callRun r2) →
      i < j → tr[p]? = some (AgentEv.startPipeline r2) →
      ∃ m : ℕ, m < p ∧ tr[m]? = some (AgentEv.endPipeline r1)) := by
  obtain ⟨sFin, hFin⟩ := Option.isSome_iff_exists.mp hrun
  constructor
  · -- (a) global mutual exclusion of pipeline executions
    intro r1 r2 p q hp hq hpq
    obtain ⟨sp, sp', hsp, hstepp, hsp'⟩ := runM_at (stepA sk) agentInit hFin hp
    obtain ⟨_, heqp⟩ := stepA_startPipeline_inv hstepp
    have hpost : sp'.gRunning = some r1 := by rw [heqp]
    obtain ⟨sq, sq', hsq, hstepq, _⟩ := runM_at (stepA sk) agentInit hFin hq
    obtain ⟨⟨_, hgnone, _⟩, _⟩ := stepA_startPipeline_inv hstepq
    by_contra hcon
    push_neg at hcon
    have hseg := runM_seg (stepA sk) agentInit (Nat.succ_le_of_lt hpq) hsp' hsq
    have hq1 : sq.gRunning = some r1 := by
      refine runM_persist (stepA sk) (fun s => s.gRunning = some r1)
        (fun e => e = AgentEv.endPipeline r1)
        (fun _ e _ h hP hE => stepA_gRunning_persist h hP hE)
        hseg hpost ?_
      intro e hmem hE
      subst hE
      obtain ⟨m, hm1, hm2, hm3⟩ := seg_mem_pos hmem
      exact hcon m (by omega) hm2 hm3
    rw [hq1] at hgnone
    cases hgnone
  · -- (b) same-session runs execute in arrival order
    intro r1 r2 i j p hsk hi hj hij hp
    obtain ⟨sp, sp', hsp, hstepp, _⟩ := runM_at (stepA sk) agentInit hFin hp
    obtain ⟨⟨hph2, _, _⟩, _⟩ := stepA_startPipeline_inv hstepp
    obtain ⟨p0, hp0p, hp0⟩ := agent_rank_event hsp (r := r2) (n := 2) (by omega)
      (by rw [hph2]; decide)
    have hp0' : tr[p0]? = some (AgentEv.startOuter r2) := hp0
    obtain ⟨s0, s0', hs0, hstep0, hs0'⟩ := runM_at (stepA sk) agentInit hFin hp0'
    obtain ⟨⟨hph02, hsrun0, hhead0⟩, _⟩ := stepA_startOuter_inv hstep0
    have hjp0 : j < p0 := agent_call_lt hFin hj hs0 (by rw [hph02]; decide)
    obtain ⟨sj, sj', hsj, hstepj, hsj'⟩ := runM_at (stepA sk) agentInit hFin hj
    obtain ⟨hidle2, heqj⟩ := stepA_callRun_inv hstepj
    have ht1_at_j : r1 ∈ sj.sOrder (sk r2) := by
      rw [← hsk]
      exact agent_sOrder_mem_at hFin hi hsj hij
    have hInv_j := agent_inv_at hsj
    have ht2notin : r2 ∉ sj.sOrder (sk r2) := fun hmem =>
      (hInv_j.2.1 _ _ hmem).2 hidle2
    have hpostj : sj'.sOrder (sk r2) = sj.sOrder (sk r2) ++ [r2] := by
      rw [heqj]
      simp [Function.update_same]
    have hseg_jp0 := runM_seg (stepA sk) agentInit (Nat.succ_le_of_lt hjp0) hsj' hs0
    obtain ⟨ext, hext⟩ := runA_sOrder_extend hseg_jp0 (sk r2)
    have hInv_0 := agent_inv_at hs0
    obtain ⟨tl, hwl⟩ : ∃ tl, s0.sQueue (sk r2) = r2 :: tl := by
      cases hx : s0.sQueue (sk r2) with
      | nil => rw [hx] at hhead0; cases hhead0
      | cons a l =>
        rw [hx] at hhead0
        simp only [List.head?_cons, Option.some.injEq] at hhead0
        exact ⟨l, by rw [hhead0]⟩
    have hsplit1 : s0.sOrder (sk r2) = s0.sDone (sk r2) ++ r2 :: tl := by
      rw [hInv_0.1 (sk r2), hsrun0, hwl]
      simp
    have hnodup := hInv_0.2.2.1 (sk r2)
    have ht2nd : r2 ∉ s0.sDone (sk r2) := by
      rw [hsplit1] at hnodup
      intro hmem
      exact (List.disjoint_of_nodup_append hnodup) hmem (List.mem_cons_self _ _)
    have heq2 : s0.sDone (sk r2) ++ r2 :: tl = sj.sOrder (sk r2) ++ r2 :: ext := by
      rw [← hsplit1, hext, hpostj]
      simp
    have hdone_eq : s0.sDone (sk r2) = sj.sOrder (sk r2) :=
      split_unique _ _ _ _ _ heq2 ht2nd ht2notin
    have ht1done : r1 ∈ s0.sDone (sk r2) := by
      rw [hdone_eq]
      exact ht1_at_j
    have hsettled : s0.phase r1 = .settled := hInv_0.2.2.2 _ _ ht1done
    obtain ⟨m, hmp0, hm⟩ := agent_rank_event hs0 (r := r1) (n := 5) (by omega)
      (by rw [hsettled]; decide)
    exact ⟨m, by omega, hm⟩

/-- A concrete valid trace of two same-session runs, executed in order. -/
def agentTraceW : List AgentEv :=
  [AgentEv.callRun 0, AgentEv.callRun 1, AgentEv.startOuter 0, AgentEv.enqGlobal 0,
    AgentEv.startPipeline 0, AgentEv.endPipeline 0, AgentEv.settleOuter 0,
    AgentEv.startOuter 1, AgentEv.enqGlobal 1, AgentEv.startPipeline 1,
    AgentEv.endPipeline 1, AgentEv.settleOuter 1]

/-- Witness for C1 at a concrete trace. -/
theorem agent_run_serialization_witness :
    (∃ m : ℕ, 4 < m ∧ m < 9 ∧ agentTraceW[m]? = some (AgentEv.endPipeline 0)) ∧
    (∃ m : ℕ, m < 9 ∧ agentTraceW[m]? = some (AgentEv.endPipeline 0)) := by
  have h := agent_run_serialization (fun _ => 0) agentTraceW (by decide)
  exact ⟨h.1 0 1 4 9 (by decide) (by decide) (by omega),
    h.2 0 1 0 1 9 rfl (by decide) (by decide) (by omega) (by decide)⟩

/-- An idle coalescer state. -/
def hbIdleW : HBState := ⟨false, false, none, none, 0⟩

/-- Witness for C3 at a concrete burst of three requests. -/
theorem heartbeat_merge_window_witness :
    (request 250 hbIdleW 5).timer = some (5 + 250) ∧
    [6, 7].foldl (request 250) (request 250 hbIdleW 5) = request 250 hbIdleW 5 ∧
    (fireTimer ([6, 7].foldl (request 250) (request 250 hbIdleW 5))).cycles =
      hbIdleW.cycles + 1 ∧
    (fireTimer ([6, 7].foldl (request 250) (request 250 hbIdleW 5))).timer = none :=
  heartbeat_merge_window 250 hbIdleW 5 [6, 7] rfl rfl rfl

/-- A coalescer state with a cycle in flight. -/
def hbRunW : HBState := ⟨true, false, none, some 3, 7⟩

/-- Witness for C4 at a concrete mid-cycle request. -/
theorem heartbeat_double_buffer_witness :
    request 250 hbRunW 10 = { hbRunW with scheduled := true } ∧
    (∀ t2, request 250 (request 250 hbRunW 10) t2 = { hbRunW with scheduled := true }) ∧
    (hbRunW.timer = none →
      completeCycle 250 60000 (request 250 hbRunW 10) 20 =
        { hbRunW with running := false, scheduled := false, lastRunAt := some 20,
                      timer := some (20 + 250) } ∧
      (fireTimer (completeCycle 250 60000 (request 250 hbRunW 10) 20)).cycles =
        hbRunW.cycles + 1 ∧
      (fireTimer (completeCycle 250 60000 (request 250 hbRunW 10) 20)).timer = none) :=
  heartbeat_double_buffer 250 60000 hbRunW 10 20 rfl

/-- A coalescer state completing a cycle with no mid-flight wake. -/
def hbRunW2 : HBState := ⟨true, false, none, some 2, 1⟩

/-- Witness for C5 at a concrete completion. -/
theorem heartbeat_no_drift_witness :
    (completeCycle 250 60000 hbRunW2 100).lastRunAt = some 100 ∧
    (completeCycle 250 60000 hbRunW2 100).timer =
      (completeCycle 250 60000 hbRunW2 100).lastRunAt.map (fun last => last + 60000) ∧
    (completeCycle 250 0 hbRunW2 100).timer = some 100 :=
  heartbeat_no_drift 250 60000 hbRunW2 100 rfl rfl rfl

/-- Witness for C6 with an empty task list under reasons interval and exec. -/
theorem runOnce_empty_gate_witness :
    runOnce true (some []) WakeReason.interval ⟨true, none⟩ ⟨[]⟩ 0 =
      (CycleOutcome.skippedEmpty, 0, ⟨[]⟩, none) ∧
    (runOnce true (some []) WakeReason.exec ⟨true, none⟩ ⟨[]⟩ 0).2.1 = 1 :=
  ⟨(runOnce_empty_gate (some []) WakeReason.interval ⟨true, none⟩ ⟨[]⟩ 0 rfl).1
      (by decide),
    (runOnce_empty_gate (some []) WakeReason.exec ⟨true, none⟩ ⟨[]⟩ 0 rfl).2 rfl⟩

/-- Witness for C7: the same message twice, once inside and once outside the
24-hour window. -/
theorem duplicate_guard_window_witness :
    (shouldSuppress ⟨[]⟩ "hello" 0).1 = false ∧
    (shouldSuppress (shouldSuppress ⟨[]⟩ "hello" 0).2 "hello" 1000).1 = true ∧
    (shouldSuppress (shouldSuppress ⟨[]⟩ "hello" 0).2 "hello" 90000000).1 = false := by
  have h1 := duplicate_guard_window "hello" 0 1000 ⟨[]⟩ (by simp) (by omega)
  have h2 := duplicate_guard_window "hello" 0 90000000 ⟨[]⟩ (by simp) (by omega)
  exact ⟨h1.1, (h1.2.1 (by norm_num [duplicateWindowMs])).1,
    h2.2.2 (by norm_num [duplicateWindowMs])⟩

/-- Witness for C8 at a concrete non-wrapping window and instant. -/
theorem active_hours_policy_witness :
    (isActive 600 (some ⟨8, 22, 0⟩) = true ↔
      (8 ≤ localHourAt 600 0 ∧ localHourAt 600 0 < 22)) ∧
    isActive 600 none = true := by
  have h := active_hours_policy 600 ⟨8, 22, 0⟩
  exact ⟨h.1 (by decide), h.2.2.1⟩

/- ================================================================
   Sandbox path resolution (claim C10)
   ================================================================ -/

/-- The Unicode space class replaced by `normalizeUnicodeSpaces`
(`src/sandbox-paths.ts:5-9`): NBSP, the U+2000-U+200A range, NNBSP, MMSP and
the ideographic space. -/
def isUnicodeSpace (c : Char) : Bool :=
  decide (c.toNat = 0xA0 ∨ (0x2000 ≤ c.toNat ∧ c.toNat ≤ 0x200A) ∨
    c.toNat = 0x202F ∨ c.toNat = 0x205F ∨ c.toNat = 0x3000)

/-- `normalizeUnicodeSpaces` from `src/sandbox-paths.ts:7-9`: replace each
such character with a plain space. -/
def normalizeUnicodeSpaces (s : String) : String :=
  ⟨s.data.map fun c => if isUnicodeSpace c then ' ' else c⟩

/-- Shape of the `filePath` string argument after splitting on `/`:
a bare `~`, or `~/rest`, or an absolute path `/c1/.../cn`, or a relative
path. Components may still contain `.`, `..` or empty segments. -/
inductive RawPath
  | tilde (rest : List String)
  | abs (comps : List String)
  | rel (comps : List String)
deriving DecidableEq

/-- A path string after tilde expansion: an absolute flag plus components
(still unnormalized). -/
structure ResPath where
  isAbs : Bool
  comps : List String
deriving DecidableEq

/-- `expandPath` from `src/sandbox-paths.ts:11-20`: space-normalize, expand a
leading `~` or `~/` against the home directory (string concatenation of
`os.homedir()` and the remainder), leave everything else untouched. -/
def expandPath (home : List String) : RawPath → ResPath
  | .tilde rest => ⟨true, home ++ rest.map normalizeUnicodeSpaces⟩
  | .abs cs => ⟨true, cs.map normalizeUnicodeSpaces⟩
  | .rel cs => ⟨false, cs.map normalizeUnicodeSpaces⟩

/-- POSIX path normalization as performed by `path.resolve` on an absolute
component list: drop empty and `.` segments, let `..` pop (and stay at the
root when there is nothing to pop). -/
def normComps (comps : List String) : List String :=
  comps.foldl
    (fun acc c =>
      if c = "" ∨ c = "." then acc
      else if c = ".." then acc.dropLast
      else acc ++ [c])
    []

/-- `resolveToCwd` from `src/sandbox-paths.ts:22-28`: an absolute expanded
path is returned as is (unnormalized); a relative one is resolved against the
(absolute) `cwd` via `path.resolve`, which normalizes. -/
def resolveToCwd (home cwd : List String) (filePath : RawPath) : ResPath :=
  let e := expandPath home filePath
  if e.isAbs then e else ⟨true, normComps (cwd ++ e.comps)⟩

/-- Strip the longest common component run of two lists. -/
def dropCommon : List String → List String → List String × List String
  | [], bs => ([], bs)
  | a :: as, [] => (a :: as, [])
  | a :: as, b :: bs => if a = b then dropCommon as bs else (a :: as, b :: bs)

/-- `path.relative(fr, t)` on POSIX: resolve (normalize) both arguments, drop
their common prefix, then climb with one `..` per remaining source component
and descend into the remaining target components. -/
def pathRelative (fr t : List String) : List String :=
  let pair := dropCommon (normComps fr) (normComps t)
  List.replicate pair.1.length ".." ++ pair.2

/-- Models `relative.startsWith("..")` on the joined component string: the
first component starts with two dots. -/
def relStartsWithDotDot : List String → Bool
  | [] => false
  | c :: _ => decide (c.data.take 2 = ['.', '.'])

/-- Models `path.isAbsolute` on the relative result (always false on POSIX
for `path.relative` output, kept for fidelity with the source's check). -/
def pathIsAbsolute (p : ResPath) : Bool := p.isAbs

/-- `resolveSandboxPath` from `src/sandbox-paths.ts:60-75`: resolve the file
path against `cwd`, resolve the root, take the relative path from the root;
return it unless it is empty (the root itself), and throw
"Path escapes workspace" when the relative path starts with `..` or is
absolute. The interpolated error message of the source is elided. -/
def resolveSandboxPath (home cwd : List String) (filePath : RawPath)
    (root : List String) : Except String (ResPath × List String) :=
  let resolved := resolveToCwd home cwd filePath
  let rootResolved := normComps root
  let rel := pathRelative rootResolved resolved.comps
  if rel = [] then Except.ok (resolved, [])
  else if relStartsWithDotDot rel = true ∨ pathIsAbsolute ⟨false, rel⟩ = true then
    Except.error "Path escapes workspace"
  else Except.ok (resolved, rel)

/-- A component surviving `normComps` is neither empty nor a dot form. -/
def goodComp (c : String) : Prop := c ≠ "" ∧ c ≠ "." ∧ c ≠ ".."

theorem normComps_aux_good (l : List String) :
    ∀ acc : List String, (∀ x ∈ acc, goodComp x) →
      ∀ x ∈ l.foldl
        (fun acc c =>
          if c = "" ∨ c = "." then acc
          else if c = ".." then acc.dropLast
          else acc ++ [c]) acc, goodComp x := by
  induction l with
  | nil => intro acc hacc x hx; exact hacc x hx
  | cons c cs ih =>
    intro acc hacc x hx
    simp only [List.foldl_cons] at hx
    by_cases h1 : c = "" ∨ c = "."
    · rw [if_pos h1] at hx
      exact ih acc hacc x hx
    · rw [if_neg h1] at hx
      by_cases h2 : c = ".."
      · rw [if_pos h2] at hx
        exact ih _ (fun y hy => hacc y ((List.dropLast_sublist _).subset hy)) x hx
      · rw [if_neg h2] at hx
        refine ih _ (fun y hy => ?_) x hx
        rcases List.mem_append.mp hy with hm | hm
        · exact hacc y hm
        · rw [List.mem_singleton.mp hm]
          push_neg at h1
          exact ⟨h1.1, h1.2, h2⟩

theorem normComps_good (l : List String) : ∀ x ∈ normComps l, goodComp x :=
  normComps_aux_good l [] (fun x hx => absurd hx (List.not_mem_nil x))

theorem normComps_aux_id (l : List String) :
    ∀ acc : List String, (∀ x ∈ l, goodComp x) →
      l.foldl
        (fun acc c =>
          if c = "" ∨ c = "." then acc
          else if c = ".." then acc.dropLast
          else acc ++ [c]) acc = acc ++ l := by
  induction l with
  | nil => intro acc _; simp
  | cons c cs ih =>
    intro acc hl
    have hc := hl c (List.mem_cons_self c cs)
    simp only [List.foldl_cons]
    rw [if_neg (not_or.mpr ⟨hc.1, hc.2.1⟩), if_neg hc.2.2]
    rw [ih (acc ++ [c]) (fun x hx => hl x (List.mem_cons_of_mem c hx))]
    simp

theorem normComps_idem (l : List String) : normComps (normComps l) = normComps l := by
  have := normComps_aux_id (normComps l) [] (normComps_good l)
  simpa [normComps] using this

theorem dropCommon_fst_nil : ∀ (a b t : List String),
    dropCommon a b = ([], t) → b = a ++ t := by
  intro a
  induction a with
  | nil =>
    intro b t h
    simp only [dropCommon, Prod.mk.injEq] at h
    rw [← h.2]
    rfl
  | cons x as ih =>
    intro b t h
    cases b with
    | nil => simp [dropCommon] at h
    | cons y bs =>
      simp only [dropCommon] at h
      by_cases hxy : x = y
      · rw [if_pos hxy] at h
        rw [hxy, List.cons_append]
        exact congrArg (y :: ·) (ih bs t h)
      · rw [if_neg hxy] at h
        simp at h

theorem pathRelative_fst_nil {a b : List String}
    (h : pathRelative a b = [] ∨ relStartsWithDotDot (pathRelative a b) = false) :
    (dropCommon (normComps a) (normComps b)).1 = [] := by
  cases hfst : (dropCommon (normComps a) (normComps b)).1 with
  | nil => rfl
  | cons x xs =>
    have hrel : pathRelative a b =
        ".." :: (List.replicate xs.length ".." ++ (dropCommon (normComps a) (normComps b)).2) := by
      simp only [pathRelative]
      rw [hfst]
      simp [List.replicate_succ]
    rcases h with h | h
    · rw [hrel] at h
      cases h
    · rw [hrel] at h
      have hT : relStartsWithDotDot
          (".." :: (List.replicate xs.length ".." ++
            (dropCommon (normComps a) (normComps b)).2)) = true := rfl
      rw [hT] at h
      cases h

/-- C10: sandbox path safety. Whenever `resolveSandboxPath` returns (instead
of throwing "Path escapes workspace"), the returned path, after tilde
expansion, resolution against `cwd` and normalization, lies inside the
resolved workspace root: the normalized root is a prefix of it. -/
theorem resolveSandboxPath_no_escape (home cwd root : List String) (filePath : RawPath)
    {res : ResPath × List String}
    (h : resolveSandboxPath home cwd filePath root = Except.ok res) :
    normComps root <+: normComps res.1.comps := by
  unfold resolveSandboxPath at h
  by_cases h0 : pathRelative (normComps root) (resolveToCwd home cwd filePath).comps = []
  · rw [if_pos h0] at h
    injection h with h'
    have hres : res.1 = resolveToCwd home cwd filePath := by rw [← h']
    have hfst := pathRelative_fst_nil (a := normComps root)
      (b := (resolveToCwd home cwd filePath).comps) (Or.inl h0)
    have hpair : dropCommon (normComps (normComps root))
        (normComps (resolveToCwd home cwd filePath).comps) =
        ([], (dropCommon (normComps (normComps root))
          (normComps (resolveToCwd home cwd filePath).comps)).2) := by
      rw [← hfst]
    have hsplit := dropCommon_fst_nil _ _ _ hpair
    rw [normComps_idem] at hsplit
    rw [hres]
    exact ⟨_, hsplit.symm⟩
  · rw [if_neg h0] at h
    by_cases h1 : relStartsWithDotDot
        (pathRelative (normComps root) (resolveToCwd home cwd filePath).comps) = true ∨
        pathIsAbsolute ⟨false, pathRelative (normComps root)
          (resolveToCwd home cwd filePath).comps⟩ = true
    · rw [if_pos h1] at h
      cases h
    · rw [if_neg h1] at h
      injection h with h'
      have hres : res.1 = resolveToCwd home cwd filePath := by rw [← h']
      push_neg at h1
      have hsw : relStartsWithDotDot
          (pathRelative (normComps root) (resolveToCwd home cwd filePath).comps) = false :=
        Bool.not_eq_true _ ▸ Bool.eq_false_iff.mpr (fun hT => h1.1 hT)
      have hfst := pathRelative_fst_nil (a := normComps root)
        (b := (resolveToCwd home cwd filePath).comps) (Or.inr hsw)
      have hpair : dropCommon (normComps (normComps root))
          (normComps (resolveToCwd home cwd filePath).comps) =
          ([], (dropCommon (normComps (normComps root))
            (normComps (resolveToCwd home cwd filePath).comps)).2) := by
        rw [← hfst]
      have hsplit := dropCommon_fst_nil _ _ _ hpair
      rw [normComps_idem] at hsplit
      rw [hres]
      exact ⟨_, hsplit.symm⟩

/-- Witness for C10 at a concrete in-workspace relative path. -/
theorem resolveSandboxPath_no_escape_witness :
    normComps ["ws"] <+:
      normComps (resolveToCwd ["home", "u"] ["ws"] (RawPath.rel ["a", "b"])).comps := by
  have h := @resolveSandboxPath_no_escape ["home", "u"] ["ws"] ["ws"]
    (RawPath.rel ["a", "b"]) (⟨true, ["ws", "a", "b"]⟩, ["a", "b"]) rfl
  exact h
